import Mathlib

/-!
Shallow embedding of the record-linkage core of the concerts ETL repository
(`concerts_etl/core/consolidate_events.py` and `concerts_etl/core/matching.py`).

Modelling conventions:
* Python `str` is modelled by Lean `String` (a list of characters).  The code
  paths under study are exercised with ASCII text; accordingly
  `unicodedata`-based accent stripping (`_strip_accents`, which removes
  combining marks after NFKD normalisation and is the identity on ASCII) is
  modelled as the identity function, and `str.lower` is modelled by the
  basic-latin `Char.toLower`.
* Python `re` whitespace `\s` is the six ASCII whitespace characters; the
  word class `\w` is alphanumeric plus underscore.
* Python floats (similarity scores, thresholds) are modelled by `ℚ`.
* Python `dict` (insertion ordered, value overwritten in place on key reuse)
  is modelled by an association list with position-preserving upsert.
* Python `set` is used by the code only for membership tests and
  intersection cardinality, never iterated; it is modelled by a list kept
  duplicate-free by the insertion operation.
-/

namespace ConcertsETL

/-- Whitespace class of Python `re` and `str.strip` or `str.split` for ASCII
text: space, tab, newline, carriage return, vertical tab, form feed. -/
def pyWs (c : Char) : Bool :=
  c = ' ' || c = '\t' || c = '\n' || c = '\r' || c = '\x0b' || c = '\x0c'

/-- Word-character class of Python `re` `\w` restricted to ASCII:
alphanumeric or underscore. -/
def pyWordChar (c : Char) : Bool :=
  c.isAlphanum || c = '_'

/-- Kept character class of `re.sub(r"[\W_]+", " ", s)` in `_norm_name`:
the complement of `[\W_]` is `\w` WITHOUT the underscore, i.e. the
alphanumerics only (the underscore, although a `\w` character, is listed in
the class and therefore replaced). -/
def nameChar (c : Char) : Bool :=
  c.isAlphanum

/-- Adjacent-pair predicate used to characterise whitespace-collapsed
text: no two neighbouring whitespace characters. -/
def noWsPair (a b : Char) : Prop :=
  ¬(pyWs a = true ∧ pyWs b = true)

/-- Adjacent-pair predicate used to characterise text with non-word runs
already collapsed by `_norm_name`: at least one of two neighbours is an
alphanumeric. -/
def wordPair (a b : Char) : Prop :=
  nameChar a = true ∨ nameChar b = true

/-- Collapse every maximal run of whitespace to a single space, as
`re.sub(r"\s+", " ", s)` does in `_norm_basic`. -/
def collapseWs : List Char → List Char
  | [] => []
  | [c] => if pyWs c then [' '] else [c]
  | c₁ :: c₂ :: cs =>
    if pyWs c₁ then
      if pyWs c₂ then collapseWs (c₂ :: cs)
      else ' ' :: collapseWs (c₂ :: cs)
    else c₁ :: collapseWs (c₂ :: cs)

/-- Drop leading and trailing whitespace, as Python `str.strip()`. -/
def pyStrip (l : List Char) : List Char :=
  ((l.dropWhile pyWs).reverse.dropWhile pyWs).reverse

/-- Model of `_norm_basic` from `consolidate_events.py`: on a missing or
empty value return the empty string, otherwise strip accents (identity on
the ASCII fragment modelled here), lowercase, collapse whitespace runs to a
single space and strip outer whitespace. -/
def normBasicL (l : List Char) : List Char :=
  pyStrip (collapseWs (l.map Char.toLower))

/-- String-level `_norm_basic`; the argument is `Optional[str]`, with `None`
and `""` both falling into the `if not s` branch of the source. -/
def normBasic (s : Option String) : String :=
  match s with
  | none => ""
  | some t => if t = "" then "" else ⟨normBasicL t.data⟩

/-- Replace every maximal run of characters of the class `[\W_]` (every
non-word character together with the underscore, i.e. everything that is
not alphanumeric) by a single space: Python `re.sub(r"[\W_]+", " ", s)` in
`_norm_name`. -/
def subNonWord : List Char → List Char
  | [] => []
  | [c] => if nameChar c then [c] else [' ']
  | c₁ :: c₂ :: cs =>
    if nameChar c₁ then c₁ :: subNonWord (c₂ :: cs)
    else
      if nameChar c₂ then ' ' :: subNonWord (c₂ :: cs)
      else subNonWord (c₂ :: cs)

/-- Worker for Python `str.split()`: `acc` is the word currently being
assembled; whitespace closes the current word, everything else extends it. -/
def pySplitGo (acc : List Char) : List Char → List (List Char)
  | [] => if acc = [] then [] else [acc]
  | c :: cs =>
    if pyWs c then
      if acc = [] then pySplitGo [] cs else acc :: pySplitGo [] cs
    else pySplitGo (acc ++ [c]) cs

/-- Python `str.split()` with no argument: split on whitespace runs and
drop empty chunks. -/
def pySplit (l : List Char) : List (List Char) :=
  pySplitGo [] l

/-- Stopword set `STOPWORDS` of `matching.py`. -/
def stopwordsMatching : List (List Char) :=
  ["live".data, "concert".data, "tour".data]

/-- Python `" ".join(tokens)`: words joined by single spaces. -/
def joinWords : List (List Char) → List Char
  | [] => []
  | [w] => w
  | w :: ws => w ++ ' ' :: joinWords ws

/-- Model of `_norm_name` from `matching.py`: lowercase, strip accents
(identity on the ASCII fragment), replace non-word runs by spaces, split
into tokens, drop stopwords, rejoin with single spaces. -/
def normNameL (l : List Char) : List Char :=
  joinWords
    ((pySplit (subNonWord (l.map Char.toLower))).filter
      (fun w => w ∉ stopwordsMatching))

/-- String-level `_norm_name`. -/
def normName (s : String) : String :=
  ⟨normNameL s.data⟩

/-!  Naive `datetime.datetime` values (the adapters produce naive local
timestamps; timezone-aware arithmetic is not exercised by the two merge
functions).  Microseconds are not modelled: no code path under study reads
them (`_round5` zeroes them and `total_seconds` differences are compared
against whole-minute tolerances in the claims considered). -/
structure PyDateTime where
  year : Nat
  month : Nat
  day : Nat
  hour : Nat
  minute : Nat
  second : Nat
deriving DecidableEq, Repr

/-- Zero-pad a numeral to two digits, as `strftime` field formatting. -/
def pad2 (n : Nat) : String :=
  if n < 10 then "0" ++ toString n else toString n

/-- Zero-pad a year to four digits (`%Y` and `date.isoformat`; `datetime`
years are between 1 and 9999). -/
def pad4 (n : Nat) : String :=
  if n < 10 then "000" ++ toString n
  else if n < 100 then "00" ++ toString n
  else if n < 1000 then "0" ++ toString n
  else toString n

/-- The `YYYY-MM-DD` rendering of the date part, `datetime.date().isoformat()`. -/
def dateIso (t : PyDateTime) : String :=
  pad4 t.year ++ "-" ++ pad2 t.month ++ "-" ++ pad2 t.day

/-- The date triple used by `datetime.date()` equality comparisons. -/
def dateTriple (t : PyDateTime) : Nat × Nat × Nat :=
  (t.year, t.month, t.day)

/-- Days in the proleptic Gregorian calendar before month `m` of a year,
`leap` telling whether the year is a leap year (for `datetime` ordinal
arithmetic). -/
def daysBeforeMonth (leap : Bool) (m : Nat) : Nat :=
  let base :=
    match m with
    | 1 => 0 | 2 => 31 | 3 => 59 | 4 => 90 | 5 => 120 | 6 => 151
    | 7 => 181 | 8 => 212 | 9 => 243 | 10 => 273 | 11 => 304 | _ => 334
  if leap ∧ 3 ≤ m then base + 1 else base

/-- Gregorian leap-year rule used by `datetime`. -/
def isLeapYear (y : Nat) : Bool :=
  (y % 4 = 0 && y % 100 ≠ 0) || y % 400 = 0

/-- Day ordinal of a date (days since 0001-01-01), as `datetime.toordinal`. -/
def dayOrdinal (t : PyDateTime) : Nat :=
  365 * (t.year - 1) + (t.year - 1) / 4 - (t.year - 1) / 100 + (t.year - 1) / 400
    + daysBeforeMonth (isLeapYear t.year) t.month + (t.day - 1)

/-- Seconds elapsed since 0001-01-01 00:00:00; differences of this quantity
are exactly `(a - b).total_seconds()` for naive `datetime` values. -/
def totalSeconds (t : PyDateTime) : Int :=
  (dayOrdinal t : Int) * 86400 + t.hour * 3600 + t.minute * 60 + t.second

/-- Model of `_round5` from `matching.py`: round the minute down to a
multiple of five and zero the seconds (and microseconds). -/
def round5 (t : PyDateTime) : PyDateTime :=
  { t with minute := t.minute / 5 * 5, second := 0 }

/-- Rendering `strftime("%Y-%m-%dT%H:%M")` used by `canonical_key`. -/
def isoMinute (t : PyDateTime) : String :=
  dateIso t ++ "T" ++ pad2 t.hour ++ ":" ++ pad2 t.minute

/-- Model of `canonical_key` from `matching.py`: normalised name and the
five-minute-rounded timestamp (or `na` when absent), bar-separated. -/
def canonicalKey (name : String) (dt : Option PyDateTime) : String :=
  let nn := normName name
  let ts :=
    match dt with
    | some t => isoMinute (round5 t)
    | none => "na"
  nn ++ "|" ++ ts

/-!  The shared `NormalizedEvent` record of `core/models.py`.  Monetary
provenance fields (`gross_total`, `net_total`, `currency`,
`sell_through_pct`) are carried by the pydantic model but never read by the
consolidation and matching code under study; they are omitted from the
embedding. -/
structure NormalizedEvent where
  provider : String
  event_id_provider : String
  event_name : String
  artist_name : Option String := none
  venue_name : Option String := none
  city : Option String
  country : Option String
  event_datetime_local : Option PyDateTime
  timezone : String
  status : String
  tickets_sold_total : Option Int
  scrape_ts_utc : PyDateTime
  ingestion_run_id : String
deriving DecidableEq, Repr

/-- Model of `_date_str` from `consolidate_events.py`: the `YYYY-MM-DD`
string of the event timestamp, or the empty string when the event or its
timestamp is absent.  (The source's `isinstance(v, str)` branch is dead in
this embedding, where the pydantic field is always a parsed datetime.) -/
def dateStr (e : Option NormalizedEvent) : String :=
  match e with
  | none => ""
  | some ev =>
    match ev.event_datetime_local with
    | none => ""
    | some v => dateIso v

/-!  Machinery for `_artist_tokens` in `consolidate_events.py`. -/

/-- Stopword set `_STOPWORDS` of `consolidate_events.py` (verbatim). -/
def stopwordsConsolidate : List String :=
  ["the", "and", "feat", "ft", "with", "x", "&", "+", "-", "–", "—",
   "le", "la", "les", "l", "de", "du", "des", "et", "au", "aux", "chez",
   "a", "an", "on", "in"]

/-- Worker for Python `str.replace`: leftmost non-overlapping replacement of
`pat` by `rep`.  The fuel starts at the string length; every step consumes
at least one character, so the fuel never runs out on the initial call. -/
def replaceSubGo (pat rep : List Char) : Nat → List Char → List Char
  | _, [] => []
  | 0, l => l
  | fuel + 1, c :: cs =>
    if pat ≠ [] ∧ pat.isPrefixOf (c :: cs) then
      rep ++ replaceSubGo pat rep fuel ((c :: cs).drop pat.length)
    else c :: replaceSubGo pat rep fuel cs

/-- Python `str.replace(pat, rep)`. -/
def replaceSub (pat rep l : List Char) : List Char :=
  replaceSubGo pat rep l.length l

/-- Alternatives of the word-boundary pattern `\b(feat|ft|with)\b`, in the
order the regex alternation tries them. -/
def wbWords : List (List Char) :=
  ["feat".data, "ft".data, "with".data]

/-- Return the alternative matching at the head of `l` with a word boundary
after it (the boundary before is checked by the caller). -/
def wbFind (l : List Char) : Option (List Char) :=
  wbWords.find? (fun w => w.isPrefixOf l && ! pyWordChar (((l.drop w.length)).headD ','))

/-- Worker for `re.sub(r"\b(feat|ft|with)\b", ",", s)`: scan left to right;
`prevWord` tracks whether the previous character of the original string is
a word character (the boundary condition before a candidate match). -/
def replaceWbGo : Nat → Bool → List Char → List Char
  | _, _, [] => []
  | 0, _, l => l
  | fuel + 1, prevWord, c :: cs =>
    if prevWord then c :: replaceWbGo fuel (pyWordChar c) cs
    else
      match wbFind (c :: cs) with
      | some w => ',' :: replaceWbGo fuel true ((c :: cs).drop w.length)
      | none => c :: replaceWbGo fuel (pyWordChar c) cs

/-- Python `re.sub(r"\b(feat|ft|with)\b", ",", s)`. -/
def replaceWb (l : List Char) : List Char :=
  replaceWbGo l.length false l

/-- Match length of `\s+[xX]\s+` at the head of `l`, when it matches there.
Backtracking of the greedy `\s+` cannot help (`[xX]` never matches a
whitespace character), so maximal-run matching is exact. -/
def wsXMatch (l : List Char) : Option Nat :=
  let w₁ := l.takeWhile pyWs
  if w₁ = [] then none
  else
    match l.drop w₁.length with
    | [] => none
    | c :: rest =>
      if c = 'x' ∨ c = 'X' then
        let w₂ := rest.takeWhile pyWs
        if w₂ = [] then none else some (w₁.length + 1 + w₂.length)
      else none

/-- Worker for `re.sub(r"\s+[xX]\s+", ",", s)`. -/
def replaceWsXGo : Nat → List Char → List Char
  | _, [] => []
  | 0, l => l
  | fuel + 1, c :: cs =>
    match wsXMatch (c :: cs) with
    | some n => ',' :: replaceWsXGo fuel ((c :: cs).drop n)
    | none => c :: replaceWsXGo fuel cs

/-- Python `re.sub(r"\s+[xX]\s+", ",", s)`. -/
def replaceWsX (l : List Char) : List Char :=
  replaceWsXGo l.length l

/-- Python `str.split(",")` (empty chunks kept). -/
def splitComma : List Char → List (List Char)
  | [] => [[]]
  | c :: cs =>
    if c = ',' then [] :: splitComma cs
    else
      match splitComma cs with
      | [] => [[c]]
      | w :: ws => (c :: w) :: ws

/-- Python `re.sub(r"[^\w\s]", " ", chunk)`: every character that is
neither a word character nor whitespace becomes a single space. -/
def punctToSpace (l : List Char) : List Char :=
  l.map (fun c => if pyWordChar c || pyWs c then c else ' ')

/-- Insertion into a Python `set`, modelled as append-if-new so that the
list stays duplicate-free. -/
def setAdd (l : List String) (t : String) : List String :=
  if t ∈ l then l else l ++ [t]

/-- Final filtering loop of `_artist_tokens` (`for t in parts: ...`): keep
tokens longer than two characters that are not stopwords. -/
def tokenStep (tks : List String) (t : List Char) : List String :=
  if t.length ≤ 2 then tks
  else if (⟨t⟩ : String) ∈ stopwordsConsolidate then tks
  else setAdd tks ⟨t⟩

/-- Process one optional field of `_artist_tokens`, threading the token
set: skip falsy values, normalise, rewrite every separator to a comma,
split, strip residual punctuation, and keep tokens longer than two
characters that are not stopwords. -/
def tokensOfField (tokens : List String) (raw : Option String) : List String :=
  match raw with
  | none => tokens
  | some r =>
    if r = "" then tokens
    else
      let s := normBasicL r.data
      let s := replaceWb s
      let s := replaceWsX s
      let s := replaceSub "&".data ",".data s
      let s := replaceSub "+".data ",".data s
      let s := replaceSub "/".data ",".data s
      let s := replaceSub " @ ".data ",".data s
      let s := replaceSub " – ".data ",".data s
      let s := replaceSub " — ".data ",".data s
      let s := replaceSub " - ".data ",".data s
      let parts :=
        (splitComma s).foldl
          (fun ps ch =>
            let ch := pyStrip (punctToSpace ch)
            if ch = [] then ps else ps ++ pySplit ch)
          []
      parts.foldl tokenStep tokens

/-- Model of `_artist_tokens(*fields)` from `consolidate_events.py`. -/
def artistTokens (fields : List (Option String)) : List String :=
  fields.foldl tokensOfField []

/-- Size of the intersection of two token sets,
`len(dc_toks & sg_toks)`. -/
def overlapCount (a b : List String) : Nat :=
  (a.filter (fun t => t ∈ b)).length

/-!  The consolidation engine `consolidate_events`. -/

/-- Python truthiness-based fallback `a or b` for strings. -/
def pyOrS (a b : String) : String :=
  if a = "" then b else a

/-- Python truthiness-based fallback for an optional string followed by a
default (`None` and `""` are both falsy). -/
def optStr (o : Option String) (dflt : String) : String :=
  match o with
  | none => dflt
  | some s => if s = "" then dflt else s

/-- Output row dictionary of `consolidate_events`; dictionary keys that a
row variant does not set are modelled as `none`. -/
structure OutRow where
  event_name : String
  event_datetime_local : String
  artist : String
  venue : String
  shotgun_tickets_sold : Option Int
  dice_tickets_sold : Option Int
  shotgun_event_id : Option String
  dice_event_id : Option String
deriving DecidableEq, Repr

/-- Row built for an accepted shotgun-dice pair (`rows.append({...})` of the
match pass); `d` is the dice day string, used when the shotgun record has no
date (`from_with_date` false). -/
def mergedRow (sg dc : NormalizedEvent) (fromWithDate : Bool) (d : String) : OutRow :=
  { event_name := pyOrS sg.event_name (pyOrS dc.event_name "")
    event_datetime_local := if fromWithDate then dateStr (some sg) else d
    artist := optStr sg.artist_name (optStr dc.artist_name "")
    venue := optStr sg.venue_name (optStr dc.venue_name (optStr sg.city (optStr dc.city "")))
    shotgun_tickets_sold := sg.tickets_sold_total
    dice_tickets_sold := dc.tickets_sold_total
    shotgun_event_id := some sg.event_id_provider
    dice_event_id := some dc.event_id_provider }

/-- Singleton row for an unmatched shotgun record (leftover pass 2). -/
def sgSingleton (sg : NormalizedEvent) : OutRow :=
  { event_name := pyOrS sg.event_name ""
    event_datetime_local := dateStr (some sg)
    artist := optStr sg.artist_name ""
    venue := optStr sg.venue_name (optStr sg.city "")
    shotgun_tickets_sold := sg.tickets_sold_total
    dice_tickets_sold := none
    shotgun_event_id := some sg.event_id_provider
    dice_event_id := none }

/-- Singleton row for an unmatched dice record (leftover pass 3). -/
def dcSingleton (dc : NormalizedEvent) : OutRow :=
  { event_name := pyOrS dc.event_name ""
    event_datetime_local := dateStr (some dc)
    artist := optStr dc.artist_name ""
    venue := optStr dc.venue_name (optStr dc.city "")
    shotgun_tickets_sold := none
    dice_tickets_sold := dc.tickets_sold_total
    shotgun_event_id := none
    dice_event_id := some dc.event_id_provider }

/-- The per-day shotgun index `sg_by_day`: an insertion-ordered dictionary
from day string to the candidate list for that day. -/
abbrev DayIndex : Type :=
  List (String × List (NormalizedEvent × List String))

/-- Python `dict.setdefault(k, []).append(v)`: extend the bucket in place,
or append a fresh bucket at the end. -/
def indexAdd (idx : DayIndex) (k : String) (v : NormalizedEvent × List String) : DayIndex :=
  if (idx.find? (fun p => p.1 = k)).isSome then
    idx.map (fun p => if p.1 = k then (p.1, p.2 ++ [v]) else p)
  else idx ++ [(k, [v])]

/-- Bucket lookup `sg_by_day.get(d, [])`. -/
def dayLookup (idx : DayIndex) (d : String) : List (NormalizedEvent × List String) :=
  ((idx.find? (fun p => p.1 = d)).map Prod.snd).getD []

/-- Token set computed for a record by both loops of `consolidate_events`:
`_artist_tokens(getattr(e, "artist_name", None), e.event_name)`. -/
def recTokens (e : NormalizedEvent) : List String :=
  artistTokens [e.artist_name, some e.event_name]

/-- One iteration of the index-construction loop: a dated shotgun record
goes into its day bucket, a dateless one is appended to the dateless
pool. -/
def indexStep (st : DayIndex × List (NormalizedEvent × List String))
    (sg : NormalizedEvent) : DayIndex × List (NormalizedEvent × List String) :=
  let d := dateStr (some sg)
  let toks := recTokens sg
  if d = "" then (st.1, st.2 ++ [(sg, toks)])
  else (indexAdd st.1 d (sg, toks), st.2)

/-- Index construction of `consolidate_events`: dated shotgun records are
bucketed by day, dateless ones are collected separately, in input order. -/
def buildIndex (shotgun : List NormalizedEvent) :
    DayIndex × List (NormalizedEvent × List String) :=
  shotgun.foldl indexStep ([], [])

/-- One scan of a candidate list: skip candidates already consumed, compute
the token overlap, and keep the strictly best positive overlap (ties keep
the earlier candidate), as both `for sg, sg_toks in ...` loops do. -/
def scanStep (used : List String) (dcToks : List String)
    (best : Option (NormalizedEvent × Nat)) (p : NormalizedEvent × List String) :
    Option (NormalizedEvent × Nat) :=
  if p.1.event_id_provider ∈ used then best
  else
    let ov := if dcToks ≠ [] ∧ p.2 ≠ [] then overlapCount dcToks p.2 else 0
    if 0 < ov ∧ (match best with | none => 0 | some q => q.2) < ov then
      some (p.1, ov)
    else best

/-- Scan of one candidate pool. -/
def scanBest (used : List String) (dcToks : List String)
    (cands : List (NormalizedEvent × List String)) : Option (NormalizedEvent × Nat) :=
  cands.foldl (scanStep used dcToks) none

/-- Candidate selection for one dice record: same-day dated candidates
first; the dateless pool is consulted only when that scan found nothing.
The boolean records which pool the winner came from (`from_with_date`). -/
def findBest (byDay : DayIndex) (noDate : List (NormalizedEvent × List String))
    (used : List String) (d : String) (dcToks : List String) :
    Option (NormalizedEvent × Bool) :=
  match scanBest used dcToks (dayLookup byDay d) with
  | some (sg, _) => some (sg, true)
  | none =>
    match scanBest used dcToks noDate with
    | some (sg, _) => some (sg, false)
    | none => none

/-- State of the match pass: the two `used` sets and the accumulated rows. -/
structure Pass1State where
  usedSg : List String
  usedDc : List String
  rows : List OutRow
deriving DecidableEq, Repr

/-- One iteration of the match pass (`for dc in dice_events`): dice records
without a date are skipped; otherwise the best candidate, if any, is
consumed and a merged row is emitted. -/
def pass1Step (byDay : DayIndex) (noDate : List (NormalizedEvent × List String))
    (st : Pass1State) (dc : NormalizedEvent) : Pass1State :=
  let d := dateStr (some dc)
  if d = "" then st
  else
    let dcToks := recTokens dc
    match findBest byDay noDate st.usedSg d dcToks with
    | none => st
    | some (sg, fromWithDate) =>
      { usedSg := setAdd st.usedSg sg.event_id_provider
        usedDc := setAdd st.usedDc dc.event_id_provider
        rows := st.rows ++ [mergedRow sg dc fromWithDate d] }

/-- The whole match pass. -/
def pass1 (byDay : DayIndex) (noDate : List (NormalizedEvent × List String))
    (dice : List NormalizedEvent) : Pass1State :=
  dice.foldl (pass1Step byDay noDate) ⟨[], [], []⟩

/-- Flattening `[(s, t) for lst in sg_by_day.values() for (s, t) in lst]`. -/
def indexFlatten (byDay : DayIndex) : List (NormalizedEvent × List String) :=
  (byDay.map Prod.snd).flatten

/-- Leftover pass 2: singleton rows for unconsumed shotgun records. -/
def pass2 (byDay : DayIndex) (noDate : List (NormalizedEvent × List String))
    (usedSg : List String) : List OutRow :=
  (((indexFlatten byDay) ++ noDate).filter
      (fun p => p.1.event_id_provider ∉ usedSg)).map
    (fun p => sgSingleton p.1)

/-- Leftover pass 3: singleton rows for unconsumed dice records. -/
def pass3 (dice : List NormalizedEvent) (usedDc : List String) : List OutRow :=
  (dice.filter (fun dc => dc.event_id_provider ∉ usedDc)).map dcSingleton

/-- Sort key `_sort_key`: the date string (rows always carry
`event_datetime_local`, possibly empty, and never an `event_date` key) and
the lowercased event name. -/
def sortKeyRow (r : OutRow) : String × String :=
  (pyOrS r.event_datetime_local "",
   (⟨(pyOrS r.event_name "").data.map Char.toLower⟩ : String))

/-- Lexicographic comparison of sort keys, as Python tuple comparison under
`list.sort(key=_sort_key)`. -/
def rowLe (a b : OutRow) : Bool :=
  let ka := sortKeyRow a
  let kb := sortKeyRow b
  decide (ka.1 < kb.1) || (decide (ka.1 = kb.1) && decide (ka.2 ≤ kb.2))

/-- Model of `consolidate_events`: match pass, the two leftover passes, and
the final stable sort. -/
def consolidateEvents (shotgun dice : List NormalizedEvent) : List OutRow :=
  let idx := buildIndex shotgun
  let st := pass1 idx.1 idx.2 dice
  let rows := st.rows ++ pass2 idx.1 idx.2 st.usedSg ++ pass3 dice st.usedDc
  rows.mergeSort rowLe

/-- Number of accepted pairs of a `consolidate_events` run (one merged row
is appended per accepted pair). -/
def matchedCountC (shotgun dice : List NormalizedEvent) : Nat :=
  (pass1 (buildIndex shotgun).1 (buildIndex shotgun).2 dice).rows.length

/-!  Model of `difflib.SequenceMatcher(None, a, b).ratio()` used by `_sim`
in `matching.py`.  With no junk argument, the only junk source is the
autojunk heuristic: when `len(b) >= 200`, characters occurring in `b` more
than `len(b) // 100 + 1` times are excluded from matching blocks (and only
reattached by the junk-extension sweeps). -/

/-- Characters of `b` made junk by the autojunk heuristic. -/
def autojunk (b : List Char) : List Char :=
  if 200 ≤ b.length then
    (b.dedup).filter (fun c => b.length / 100 + 1 < b.count c)
  else []

/-- Length of the equal run at the head of the two suffixes, counting only
non-junk characters of `b` (junk characters never enter `b2j`, so they both
break and bound matching runs). -/
def runLen (junk : List Char) : List Char → List Char → Nat
  | a :: as, b :: bs =>
    if a = b ∧ b ∉ junk then runLen junk as bs + 1 else 0
  | _, _ => 0

/-- Core of `find_longest_match` before the extension sweeps: among all
maximal non-junk matching blocks pick the longest, ties going to the block
starting earliest in `a`, then earliest in `b` (the documented behaviour;
the fold updates only on a strictly longer run). -/
def longestBlock (junk : List Char) (a b : List Char) : Nat × Nat × Nat :=
  (List.range a.length).foldl
    (fun best i =>
      (List.range b.length).foldl
        (fun best j =>
          let k := runLen junk (a.drop i) (b.drop j)
          if best.2.2 < k then (i, j, k) else best)
        best)
    (0, 0, 0)

/-- Equality-with-side-condition test on two optional characters, used by
the extension sweeps (`False` when either position is out of range). -/
def eqKeep (keep : Char → Bool) (x y : Option Char) : Bool :=
  match x, y with
  | some c, some d => c = d && keep d
  | _, _ => false

/-- Leftward extension sweep of `find_longest_match`: grow the block while
the preceding characters are equal and satisfy `keep` on the `b` side. -/
def extendLeft (keep : Char → Bool) (a b : List Char) :
    Nat → Nat × Nat × Nat → Nat × Nat × Nat
  | 0, blk => blk
  | fuel + 1, (i, j, k) =>
    if 0 < i ∧ 0 < j ∧ eqKeep keep (a.get? (i - 1)) (b.get? (j - 1)) then
      extendLeft keep a b fuel (i - 1, j - 1, k + 1)
    else (i, j, k)

/-- Rightward extension sweep of `find_longest_match`. -/
def extendRight (keep : Char → Bool) (a b : List Char) :
    Nat → Nat × Nat × Nat → Nat × Nat × Nat
  | 0, blk => blk
  | fuel + 1, (i, j, k) =>
    if eqKeep keep (a.get? (i + k)) (b.get? (j + k)) then
      extendRight keep a b fuel (i, j, k + 1)
    else (i, j, k)

/-- Full `find_longest_match` on the slices `a`, `b`: longest non-junk
block, then the non-junk extension sweeps, then the junk extension
sweeps, in the order of the difflib source. -/
def findLongestMatch (junk : List Char) (a b : List Char) : Nat × Nat × Nat :=
  let fuel := a.length + b.length + 1
  let blk := longestBlock junk a b
  let blk := extendLeft (fun c => ! decide (c ∈ junk)) a b fuel blk
  let blk := extendRight (fun c => ! decide (c ∈ junk)) a b fuel blk
  let blk := extendLeft (fun c => decide (c ∈ junk)) a b fuel blk
  extendRight (fun c => decide (c ∈ junk)) a b fuel blk

/-- Total size of all matching blocks (`sum(b.size for b in
get_matching_blocks())`): recurse on the parts left and right of the
longest match.  The fuel bounds the recursion depth; each level removes at
least one character from both sides, so the initial fuel is ample. -/
def matchedTotal (junk : List Char) : Nat → List Char → List Char → Nat
  | 0, _, _ => 0
  | fuel + 1, a, b =>
    let blk := findLongestMatch junk a b
    if blk.2.2 = 0 then 0
    else
      matchedTotal junk fuel (a.take blk.1) (b.take blk.2.1)
        + blk.2.2
        + matchedTotal junk fuel (a.drop (blk.1 + blk.2.2)) (b.drop (blk.2.1 + blk.2.2))

/-- Model of `SequenceMatcher(None, a, b).ratio()`:
`2 * M / (len(a) + len(b))`, and `1.0` for two empty sequences. -/
def seqMatchScore (a b : List Char) : ℚ :=
  let total := a.length + b.length
  if total = 0 then 1
  else mkRat (2 * (matchedTotal (autojunk b) (total + 1) a b : Int)) total

/-- Model of `_sim` from `matching.py`: similarity of the normalised
names. -/
def simNames (a b : String) : ℚ :=
  seqMatchScore (normName a).data (normName b).data

/-!  The merge `merge_shotgun_dice` of `matching.py`.  Its two dictionaries
(`sg_index`, `out`) are modelled as insertion-ordered association lists:
writing to an existing key replaces the value in place, writing to a fresh
key appends. -/

/-- Association-list model of a Python `dict` keyed by strings. -/
abbrev PyDict (α : Type) : Type :=
  List (String × α)

/-- Python `d[k] = v`: overwrite in place when the key exists (keeping its
position), append otherwise. -/
def dictSet (l : PyDict α) (k : String) (v : α) : PyDict α :=
  if (l.find? (fun p => p.1 = k)).isSome then
    l.map (fun p => if p.1 = k then (p.1, v) else p)
  else l ++ [(k, v)]

/-- In-place mutation of the row stored at an existing key (the matched
branch of the dice loop always addresses a key present in `out`, so the
source never raises `KeyError`). -/
def dictModify (l : PyDict α) (k : String) (f : α → α) : PyDict α :=
  l.map (fun p => if p.1 = k then (p.1, f p.2) else p)

/-- The `ConsolidatedRow` pydantic model of `matching.py`. -/
structure ConsolidatedRow where
  canonical_event_key : String
  event_name : String
  event_datetime_local : Option PyDateTime
  timezone : String := "Europe/Paris"
  tickets_sold_total_shotgun : Option Int := none
  tickets_sold_total_dice : Option Int := none
  scrape_ts_utc : PyDateTime
  ingestion_run_id : String
deriving DecidableEq, Repr

/-- Row created for a shotgun event during index construction. -/
def sgRow (key : String) (ev : NormalizedEvent) : ConsolidatedRow :=
  { canonical_event_key := key
    event_name := ev.event_name
    event_datetime_local := ev.event_datetime_local
    tickets_sold_total_shotgun := ev.tickets_sold_total
    scrape_ts_utc := ev.scrape_ts_utc
    ingestion_run_id := ev.ingestion_run_id }

/-- Row created for a dice event with no shotgun counterpart. -/
def dcRow (key : String) (ev : NormalizedEvent) : ConsolidatedRow :=
  { canonical_event_key := key
    event_name := ev.event_name
    event_datetime_local := ev.event_datetime_local
    tickets_sold_total_dice := ev.tickets_sold_total
    scrape_ts_utc := ev.scrape_ts_utc
    ingestion_run_id := ev.ingestion_run_id }

/-- Canonical key of an event record as the source computes it at each call
site: `canonical_key(ev.event_name, ev.event_datetime_local)`. -/
def eventKey (ev : NormalizedEvent) : String :=
  canonicalKey ev.event_name ev.event_datetime_local

/-- Index construction of `merge_shotgun_dice`: one pass over the shotgun
records filling both `sg_index` and `out` (a later record sharing a
canonical key overwrites the earlier one in both dictionaries). -/
def sgIndexStep (st : PyDict NormalizedEvent × PyDict ConsolidatedRow)
    (ev : NormalizedEvent) : PyDict NormalizedEvent × PyDict ConsolidatedRow :=
  let key := eventKey ev
  (dictSet st.1 key ev, dictSet st.2 key (sgRow key ev))

/-- Builds both dictionaries by folding `sgIndexStep` over the shotgun
records. -/
def buildSg (shotgun : List NormalizedEvent) :
    PyDict NormalizedEvent × PyDict ConsolidatedRow :=
  shotgun.foldl sgIndexStep ([], [])

/-- Same-day gate of the dice loop: `continue` when both records carry a
timestamp and the dates differ. -/
def dayGate (sv dv : NormalizedEvent) : Bool :=
  match sv.event_datetime_local, dv.event_datetime_local with
  | some s, some d => decide (dateTriple s ≠ dateTriple d)
  | _, _ => false

/-- Hour-tolerance gate of the dice loop: `continue` when both records
carry a timestamp and they are farther apart than `hour_tolerance_min`
minutes. -/
def tolGate (tol : Int) (sv dv : NormalizedEvent) : Bool :=
  match sv.event_datetime_local, dv.event_datetime_local with
  | some s, some d => decide (tol * 60 < |totalSeconds s - totalSeconds d|)
  | _, _ => false

/-- Day-equality and hour-tolerance gates, then threshold-and-improvement
acceptance, for one shotgun index entry (`for key, sv in
sg_index.items()`).  The state carries the best key so far and the best
score so far (initially `0.0`). -/
def diceStep (tol : Int) (thr : ℚ) (dv : NormalizedEvent)
    (best : Option String × ℚ) (p : String × NormalizedEvent) : Option String × ℚ :=
  if dayGate p.2 dv then best
  else if tolGate tol p.2 dv then best
  else
    let score := simNames p.2.event_name dv.event_name
    if thr ≤ score ∧ best.2 < score then (some p.1, score) else best

/-- Best shotgun key for one dice record (the inner loop of
`merge_shotgun_dice`). -/
def diceBest (sgIdx : PyDict NormalizedEvent) (dv : NormalizedEvent)
    (tol : Int) (thr : ℚ) : Option String :=
  (sgIdx.foldl (diceStep tol thr dv) (none, 0)).1

/-- One iteration of the dice loop: attach to the best shotgun row when one
qualifies (overwriting its dice tickets and backfilling a missing name or
date), otherwise insert an independent row at the dice record's own key. -/
def mergeStep (sgIdx : PyDict NormalizedEvent) (tol : Int) (thr : ℚ)
    (out : PyDict ConsolidatedRow) (dv : NormalizedEvent) : PyDict ConsolidatedRow :=
  match diceBest sgIdx dv tol thr with
  | some key =>
    dictModify out key
      (fun row =>
        { row with
          tickets_sold_total_dice := dv.tickets_sold_total
          event_name := if row.event_name = "" then dv.event_name else row.event_name
          event_datetime_local :=
            if row.event_datetime_local = none then dv.event_datetime_local
            else row.event_datetime_local })
  | none =>
    let key := eventKey dv
    dictSet out key (dcRow key dv)

/-- Model of `merge_shotgun_dice(shotgun, dice, hour_tolerance_min,
name_threshold)` (the source defaults are 30 minutes and 0.90); returns
`list(out.values())`. -/
def mergeShotgunDice (shotgun dice : List NormalizedEvent)
    (tol : Int) (thr : ℚ) : List ConsolidatedRow :=
  let st := buildSg shotgun
  (dice.foldl (mergeStep st.1 tol thr) st.2).map Prod.snd

/-- Number of dice records that attach to a shotgun row during a
`merge_shotgun_dice` run. -/
def matchedPairCount (shotgun dice : List NormalizedEvent)
    (tol : Int) (thr : ℚ) : Nat :=
  dice.countP (fun dv => (diceBest (buildSg shotgun).1 dv tol thr).isSome)

/-!  Specification-side helpers used to state the completeness and
consumption properties: they name quantities the source manipulates
implicitly (candidate pools, ids carried by rows, loop invariants). -/

/-- Candidate pool of a `consolidate_events` run: dated buckets in index
order followed by the dateless pool. -/
def candsOf (byDay : DayIndex) (noDate : List (NormalizedEvent × List String)) :
    List (NormalizedEvent × List String) :=
  indexFlatten byDay ++ noDate

/-- Shotgun ids carried by a row list. -/
def sgIdsOf (rows : List OutRow) : List String :=
  rows.filterMap (fun r => r.shotgun_event_id)

/-- Dice ids carried by a row list. -/
def dcIdsOf (rows : List OutRow) : List String :=
  rows.filterMap (fun r => r.dice_event_id)

/-- Bucket invariant of the shotgun day index: every bucket is keyed by a
non-empty day string and holds records of that day paired with their
token sets. -/
def IdxInv (idx : DayIndex) : Prop :=
  ∀ p ∈ idx, p.1 ≠ "" ∧ ∀ q ∈ p.2, dateStr (some q.1) = p.1 ∧ q.2 = recTokens q.1

/-- Invariant of the dateless pool. -/
def NdInv (noDate : List (NormalizedEvent × List String)) : Prop :=
  ∀ q ∈ noDate, dateStr (some q.1) = "" ∧ q.2 = recTokens q.1

/-- Invariant of the match pass relating the state reached after the dice
prefix `processed` to the candidate pool. -/
def pass1Inv (byDay : DayIndex) (noDate : List (NormalizedEvent × List String))
    (processed : List NormalizedEvent) (st : Pass1State) : Prop :=
  sgIdsOf st.rows = st.usedSg ∧
    dcIdsOf st.rows = st.usedDc ∧
    st.usedSg.Nodup ∧
    (∀ i ∈ st.usedSg, ∃ p ∈ candsOf byDay noDate, p.1.event_id_provider = i) ∧
    List.Sublist st.usedDc (processed.map (fun dc => dc.event_id_provider)) ∧
    ∀ r ∈ st.rows, ∃ sg dc fwd,
      (sg, recTokens sg) ∈ candsOf byDay noDate ∧ dc ∈ processed ∧
        recTokens sg ≠ [] ∧ recTokens dc ≠ [] ∧
        r = mergedRow sg dc fwd (dateStr (some dc)) ∧
        dateStr (some dc) ≠ "" ∧
        (fwd = true → dateStr (some sg) = dateStr (some dc)) ∧
        (fwd = false → dateStr (some sg) = "")

/-- Dice records of a `merge_shotgun_dice` run that do not attach to any
shotgun row. -/
def unmatchedDice (shotgun dice : List NormalizedEvent) (tol : Int) (thr : ℚ) :
    List NormalizedEvent :=
  dice.filter (fun dv => !(diceBest (buildSg shotgun).1 dv tol thr).isSome)

/-- Acceptance of a shotgun index entry by one dice record, ignoring the
running best: both gates pass, the score reaches the threshold and the
score beats the initial best score `0.0`. -/
def diceAccepts (tol : Int) (thr : ℚ) (dv : NormalizedEvent)
    (p : String × NormalizedEvent) : Prop :=
  dayGate p.2 dv = false ∧ tolGate tol p.2 dv = false ∧
    thr ≤ simNames p.2.event_name dv.event_name ∧
    0 < simNames p.2.event_name dv.event_name

/-!  Concrete records used by witnesses and counterexamples. -/

/-- A sample timestamp. -/
def exDT : PyDateTime :=
  ⟨2025, 10, 10, 20, 0, 0⟩

/-- Event-record builder for concrete examples. -/
def exEv (pv id nm : String) (dt : Option PyDateTime) (tk : Option Int) : NormalizedEvent :=
  { provider := pv
    event_id_provider := id
    event_name := nm
    city := none
    country := none
    event_datetime_local := dt
    timezone := "Europe/Paris"
    status := "on sale"
    tickets_sold_total := tk
    scrape_ts_utc := ⟨2025, 10, 1, 8, 0, 0⟩
    ingestion_run_id := "r1" }

/-!  Properties of the tokeniser. -/

/-- A token kept by `_artist_tokens`: longer than two characters and not a
consolidation stopword. -/
def tokenOk (t : String) : Prop :=
  2 < t.length ∧ t ∉ stopwordsConsolidate

/-!  Named concrete inputs for the completeness and consumption examples. -/

/-- A dated shotgun record and a dice record of the same day and name:
both merge variants accept the pair. -/
def wA : List NormalizedEvent := [exEv "shotgun" "s1" "Band" (some exDT) (some 10)]

/-- The matching dice input for `wA`. -/
def wB : List NormalizedEvent := [exEv "dice" "d1" "Band" (some exDT) (some 20)]

/-- Two distinct shotgun records sharing one canonical key (same name and
timestamp): the `out[key] = ...` insertions of `merge_shotgun_dice`
collide. -/
def cxA : List NormalizedEvent :=
  [exEv "shotgun" "s1" "Band" (some exDT) (some 10),
   exEv "shotgun" "s2" "Band" (some exDT) (some 20)]

/-- Two dice records that both pass the gates against the single shotgun
record of name "Band": `merge_shotgun_dice` attaches both to the same
row. -/
def cxB2 : List NormalizedEvent :=
  [exEv "dice" "d1" "Band" (some exDT) (some 5),
   exEv "dice" "d2" "Band" (some exDT) (some 7)]

/-- A dateless shotgun record whose name still yields a token. -/
def exSg5 : NormalizedEvent := exEv "shotgun" "s1" "Band" none (some 10)

/-- A dated dice record matching `exSg5` by token overlap. -/
def exDc5 : NormalizedEvent := exEv "dice" "d1" "Band" (some exDT) (some 20)

/-- Scenario-3 shotgun input: one dateless record with tokens. -/
def cxA4 : List NormalizedEvent := [exSg5]

/-- Scenario-3 dice input: one dated record with the same token. -/
def cxB4 : List NormalizedEvent := [exDc5]

/-- The merged row produced from `cxA4`/`cxB4`: fallback match, date taken
from the dice record. -/
def exRow5 : OutRow := mergedRow exSg5 exDc5 false (dateStr (some exDc5))

/-- A shotgun record whose name "x" yields no artist token. -/
def exA4 : NormalizedEvent := exEv "shotgun" "s1" "x" (some exDT) (some 10)

/-- A dice record with no date. -/
def exB4 : NormalizedEvent := exEv "dice" "d1" "Band" none (some 5)

/-- Input list holding only the token-free shotgun record. -/
def w4A : List NormalizedEvent := [exA4]

/-- Input list holding only the dateless dice record. -/
def w4B : List NormalizedEvent := [exB4]

/-!  Threshold monotonicity of the dice loop. -/

theorem diceStep_isSome {tol : Int} {thr : ℚ} {dv : NormalizedEvent}
    {best : Option String × ℚ} (p : String × NormalizedEvent)
    (h : best.1.isSome) : ((diceStep tol thr dv best p).1).isSome := by
  unfold diceStep
  split
  · exact h
  · split
    · exact h
    · dsimp only
      split
      · rfl
      · exact h

theorem diceFold_isSome {tol : Int} {thr : ℚ} {dv : NormalizedEvent}
    (l : List (String × NormalizedEvent)) (st : Option String × ℚ)
    (h : st.1.isSome) : ((l.foldl (diceStep tol thr dv) st).1).isSome := by
  induction l generalizing st with
  | nil => exact h
  | cons p rest ih => exact ih _ (diceStep_isSome p h)

theorem diceFold_none_isSome_iff {tol : Int} {thr : ℚ} {dv : NormalizedEvent}
    (l : List (String × NormalizedEvent)) :
    ((l.foldl (diceStep tol thr dv) (none, 0)).1).isSome ↔
      ∃ p ∈ l, diceAccepts tol thr dv p := by
  induction l with
  | nil => simp
  | cons p rest ih =>
    rw [List.foldl_cons]
    by_cases hd : dayGate p.2 dv
    · have hstep : diceStep tol thr dv (none, 0) p = (none, 0) := by
        unfold diceStep
        rw [if_pos hd]
      rw [hstep, ih]
      constructor
      · intro ⟨q, hq, ha⟩
        exact ⟨q, List.mem_cons_of_mem p hq, ha⟩
      · intro ⟨q, hq, ha⟩
        rcases List.mem_cons.mp hq with rfl | hq
        · exact absurd ha.1 (by simp [hd])
        · exact ⟨q, hq, ha⟩
    · by_cases ht : tolGate tol p.2 dv
      · have hstep : diceStep tol thr dv (none, 0) p = (none, 0) := by
          unfold diceStep
          rw [if_neg hd, if_pos ht]
        rw [hstep, ih]
        constructor
        · intro ⟨q, hq, ha⟩
          exact ⟨q, List.mem_cons_of_mem p hq, ha⟩
        · intro ⟨q, hq, ha⟩
          rcases List.mem_cons.mp hq with rfl | hq
          · exact absurd ha.2.1 (by simp [ht])
          · exact ⟨q, hq, ha⟩
      · by_cases hs : thr ≤ simNames p.2.event_name dv.event_name ∧
            (0 : ℚ) < simNames p.2.event_name dv.event_name
        · have hstep : diceStep tol thr dv (none, 0) p =
              (some p.1, simNames p.2.event_name dv.event_name) := by
            unfold diceStep
            rw [if_neg hd, if_neg ht]
            exact if_pos hs
          rw [hstep]
          constructor
          · intro _
            exact ⟨p, List.mem_cons_self p rest,
              Bool.of_not_eq_true hd, Bool.of_not_eq_true ht, hs.1, hs.2⟩
          · intro _
            exact diceFold_isSome rest _ rfl
        · have hstep : diceStep tol thr dv (none, 0) p = (none, 0) := by
            unfold diceStep
            rw [if_neg hd, if_neg ht]
            exact if_neg hs
          rw [hstep, ih]
          constructor
          · intro ⟨q, hq, ha⟩
            exact ⟨q, List.mem_cons_of_mem p hq, ha⟩
          · intro ⟨q, hq, ha⟩
            rcases List.mem_cons.mp hq with rfl | hq
            · exact absurd ⟨ha.2.2.1, ha.2.2.2⟩ hs
            · exact ⟨q, hq, ha⟩

theorem diceBest_isSome_iff {tol : Int} {thr : ℚ} {dv : NormalizedEvent}
    (sgIdx : PyDict NormalizedEvent) :
    (diceBest sgIdx dv tol thr).isSome ↔ ∃ p ∈ sgIdx, diceAccepts tol thr dv p :=
  diceFold_none_isSome_iff sgIdx

/-- C7.  Raising the name-similarity threshold never increases the number
of matched pairs of `merge_shotgun_dice`: whether a dice record attaches
depends only on the existence of a qualifying shotgun index entry, and
qualification at a higher threshold implies qualification at a lower
one. -/
theorem threshold_monotone (A B : List NormalizedEvent) (tol : Int)
    (t₁ t₂ : ℚ) (h : t₁ ≤ t₂) :
    matchedPairCount A B tol t₂ ≤ matchedPairCount A B tol t₁ := by
  unfold matchedPairCount
  apply List.countP_mono_left
  intro dv _ hdv
  rw [diceBest_isSome_iff] at hdv ⊢
  obtain ⟨p, hp, ha⟩ := hdv
  exact ⟨p, hp, ha.1, ha.2.1, le_trans h ha.2.2.1, ha.2.2.2⟩

/-- Witness for C7 at concrete thresholds and inputs. -/
theorem threshold_monotone_witness :
    mkRat 1 2 ≤ mkRat 9 10 ∧
      matchedPairCount [exEv "shotgun" "s1" "Daft Punk" (some exDT) (some 500)]
          [exEv "dice" "d1" "Daft Punk Live" (some exDT) (some 480)] 30 (mkRat 9 10) ≤
        matchedPairCount [exEv "shotgun" "s1" "Daft Punk" (some exDT) (some 500)]
          [exEv "dice" "d1" "Daft Punk Live" (some exDT) (some 480)] 30 (mkRat 1 2) :=
  ⟨by decide,
    threshold_monotone [exEv "shotgun" "s1" "Daft Punk" (some exDT) (some 500)]
      [exEv "dice" "d1" "Daft Punk Live" (some exDT) (some 480)] 30 (mkRat 1 2) (mkRat 9 10)
      (by decide)⟩

/-!  Two-tier candidate preference of the consolidation match pass. -/

theorem overlapCount_pos {a b : List String} (h : 0 < overlapCount a b) :
    a ≠ [] ∧ b ≠ [] := by
  unfold overlapCount at h
  obtain ⟨t, ht⟩ := List.exists_mem_of_length_pos h
  have hmem := List.mem_filter.mp ht
  have hb : t ∈ b := by
    have := hmem.2
    exact of_decide_eq_true this
  exact ⟨List.ne_nil_of_mem hmem.1, List.ne_nil_of_mem hb⟩

theorem scanStep_isSome {used : List String} {dcToks : List String}
    {best : Option (NormalizedEvent × Nat)} (p : NormalizedEvent × List String)
    (h : best.isSome) : (scanStep used dcToks best p).isSome := by
  unfold scanStep
  split
  · exact h
  · dsimp only
    split
    all_goals split
    all_goals first
      | rfl
      | exact h

theorem scanFold_isSome {used : List String} {dcToks : List String}
    (cands : List (NormalizedEvent × List String))
    (st : Option (NormalizedEvent × Nat)) (h : st.isSome) :
    (cands.foldl (scanStep used dcToks) st).isSome := by
  induction cands generalizing st with
  | nil => exact h
  | cons p rest ih => exact ih _ (scanStep_isSome p h)

theorem scanStep_accepts {used : List String} {dcToks : List String}
    {p : NormalizedEvent × List String}
    (hu : p.1.event_id_provider ∉ used) (hov : 0 < overlapCount dcToks p.2) :
    (scanStep used dcToks none p).isSome := by
  unfold scanStep
  rw [if_neg hu]
  dsimp only
  have hne := overlapCount_pos hov
  rw [if_pos hne, if_pos ⟨hov, hov⟩]
  rfl

theorem scanBest_isSome_of {used : List String} {dcToks : List String} :
    ∀ cands : List (NormalizedEvent × List String),
      (∃ p ∈ cands, p.1.event_id_provider ∉ used ∧ 0 < overlapCount dcToks p.2) →
        (scanBest used dcToks cands).isSome := by
  intro cands
  induction cands with
  | nil =>
    intro ⟨p, hp, _⟩
    cases hp
  | cons q rest ih =>
    intro ⟨p, hp, hu, hov⟩
    show (List.foldl (scanStep used dcToks) (scanStep used dcToks none q) rest).isSome
    by_cases hq : (scanStep used dcToks none q).isSome
    · exact scanFold_isSome rest _ hq
    · rw [Option.not_isSome_iff_eq_none.mp hq]
      rcases List.mem_cons.mp hp with rfl | hp'
      · exact absurd (scanStep_accepts hu hov) hq
      · exact ih ⟨p, hp', hu, hov⟩

/-- C10.  For a dated dice record, the dateless shotgun pool is consulted
only when no same-day dated candidate qualifies: whenever some unused
same-day candidate has positive token overlap, the selected match comes
from the dated pool (`from_with_date` true), regardless of the overlaps in
the dateless pool. -/
theorem two_tier_preference (byDay : DayIndex)
    (noDate : List (NormalizedEvent × List String)) (used : List String)
    (d : String) (dcToks : List String)
    (h : ∃ p ∈ dayLookup byDay d,
        p.1.event_id_provider ∉ used ∧ 0 < overlapCount dcToks p.2) :
    ∃ sg, findBest byDay noDate used d dcToks = some (sg, true) := by
  have hs := scanBest_isSome_of (dayLookup byDay d) h
  obtain ⟨q, hq⟩ := Option.isSome_iff_exists.mp hs
  refine ⟨q.1, ?_⟩
  unfold findBest
  rw [hq]

/-- Witness for C10: the dated same-day candidate has overlap 1, the
dateless candidate overlap 2, and the dated one is selected. -/
theorem two_tier_preference_witness :
    (∃ p ∈ dayLookup [("2025-01-01", [(exEv "shotgun" "sa" "Alpha" none none, ["band"])])] "2025-01-01",
        p.1.event_id_provider ∉ ([] : List String) ∧
          0 < overlapCount ["cool", "band"] p.2) ∧
      ∃ sg, findBest [("2025-01-01", [(exEv "shotgun" "sa" "Alpha" none none, ["band"])])]
          [(exEv "shotgun" "sb" "Beta" none none, ["cool", "band"])]
          [] "2025-01-01" ["cool", "band"] = some (sg, true) :=
  ⟨by decide,
    two_tier_preference [("2025-01-01", [(exEv "shotgun" "sa" "Alpha" none none, ["band"])])]
      [(exEv "shotgun" "sb" "Beta" none none, ["cool", "band"])]
      [] "2025-01-01" ["cool", "band"] (by decide)⟩

/-!  Output sort order. -/

theorem rowLe_total (a b : OutRow) : (rowLe a b || rowLe b a) = true := by
  unfold rowLe
  rcases lt_trichotomy (sortKeyRow a).1 (sortKeyRow b).1 with h | h | h
  · simp [h]
  · rcases le_total (sortKeyRow a).2 (sortKeyRow b).2 with h₂ | h₂
    · simp [h, h₂]
    · simp [h, h₂]
  · simp [h]

theorem rowLe_trans (a b c : OutRow) :
    rowLe a b = true → rowLe b c = true → rowLe a c = true := by
  unfold rowLe
  intro hab hbc
  simp only [Bool.or_eq_true, Bool.and_eq_true, decide_eq_true_eq] at hab hbc ⊢
  rcases hab with h₁ | ⟨h₁, h₂⟩ <;> rcases hbc with h₃ | ⟨h₃, h₄⟩
  · exact Or.inl (lt_trans h₁ h₃)
  · exact Or.inl (h₃ ▸ h₁)
  · exact Or.inl (h₁ ▸ h₃)
  · exact Or.inr ⟨h₁.trans h₃, le_trans h₂ h₄⟩

/-- A row with empty date key compares below any row with a non-empty date
key. -/
theorem rowLe_empty_date {r s : OutRow} (hr : r.event_datetime_local = "")
    (hs : s.event_datetime_local ≠ "") : rowLe r s = true := by
  unfold rowLe sortKeyRow pyOrS
  have h1 : (if r.event_datetime_local = "" then "" else r.event_datetime_local) = "" := by
    rw [if_pos hr]
  have h2 : (if s.event_datetime_local = "" then "" else s.event_datetime_local) =
      s.event_datetime_local := by
    rw [if_neg hs]
  rw [h1, h2]
  rcases hsd : s.event_datetime_local with ⟨ld⟩
  cases ld with
  | nil => exact absurd hsd hs
  | cons c cs =>
    have hlt : ("" : String) < ⟨c :: cs⟩ := by
      rw [String.lt_iff_toList_lt]
      exact List.nil_lt_cons c cs
    simp [hlt]

/-- C9.  The output of `consolidate_events` is sorted by the pair (date
string ascending, lowercased event name ascending); a row whose date key is
the empty string compares below every dated row, hence sorts first.  The
model sorts with the stable `mergeSort`, mirroring Python's stable
`list.sort`. -/
theorem output_sorted (A B : List NormalizedEvent) :
    (consolidateEvents A B).Pairwise (fun r s => rowLe r s = true) ∧
      ∀ r s : OutRow, r.event_datetime_local = "" → s.event_datetime_local ≠ "" →
        rowLe r s = true := by
  constructor
  · unfold consolidateEvents
    exact List.sorted_mergeSort rowLe_trans rowLe_total _
  · intro r s hr hs
    exact rowLe_empty_date hr hs

/-- Witness for C9 at concrete inputs: a sorted two-row output, and the
empty-date row of a concrete pair comparing below the dated row. -/
theorem output_sorted_witness :
    (consolidateEvents [exEv "shotgun" "s1" "Alpha" none none]
        [exEv "dice" "d1" "Beta" (some exDT) none]).Pairwise
      (fun r s => rowLe r s = true) ∧
      rowLe (sgSingleton (exEv "shotgun" "s1" "Alpha" none none))
        (dcSingleton (exEv "dice" "d1" "Beta" (some exDT) none)) = true :=
  ⟨(output_sorted [exEv "shotgun" "s1" "Alpha" none none]
      [exEv "dice" "d1" "Beta" (some exDT) none]).1,
    (output_sorted [exEv "shotgun" "s1" "Alpha" none none]
        [exEv "dice" "d1" "Beta" (some exDT) none]).2
      (sgSingleton (exEv "shotgun" "s1" "Alpha" none none))
      (dcSingleton (exEv "dice" "d1" "Beta" (some exDT) none))
      (by rfl) (by decide)⟩


/-!  Idempotence of the two normalisers. -/

theorem collapse_mem : ∀ {l : List Char} {c : Char}, c ∈ collapseWs l → c = ' ' ∨ c ∈ l
  | [], c, h => by cases h
  | [d], c, h => by
    unfold collapseWs at h
    split at h
    · exact Or.inl (List.mem_singleton.mp h)
    · exact Or.inr h
  | c₁ :: c₂ :: cs, c, h => by
    unfold collapseWs at h
    split at h
    · split at h
      · rcases collapse_mem h with h | h
        · exact Or.inl h
        · exact Or.inr (List.mem_cons_of_mem _ h)
      · rcases List.mem_cons.mp h with rfl | h
        · exact Or.inl rfl
        · rcases collapse_mem h with h | h
          · exact Or.inl h
          · exact Or.inr (List.mem_cons_of_mem _ h)
    · rcases List.mem_cons.mp h with rfl | h
      · exact Or.inr (List.mem_cons_self _ _)
      · rcases collapse_mem h with h | h
        · exact Or.inl h
        · exact Or.inr (List.mem_cons_of_mem _ h)

theorem collapse_ws_space : ∀ {l : List Char} {c : Char}, c ∈ collapseWs l → pyWs c → c = ' '
  | [], c, h, _ => by cases h
  | [d], c, h, hw => by
    unfold collapseWs at h
    split at h
    · exact List.mem_singleton.mp h
    · next hd =>
      rw [List.mem_singleton.mp h] at hw
      exact absurd hw (by simpa using hd)
  | c₁ :: c₂ :: cs, c, h, hw => by
    unfold collapseWs at h
    split at h
    · split at h
      · exact collapse_ws_space h hw
      · rcases List.mem_cons.mp h with rfl | h
        · rfl
        · exact collapse_ws_space h hw
    · next hd =>
      rcases List.mem_cons.mp h with rfl | h
      · exact absurd hw (by simpa using hd)
      · exact collapse_ws_space h hw

theorem collapse_head : ∀ (c : Char) (cs : List Char),
    ∃ t, collapseWs (c :: cs) = (if pyWs c then ' ' else c) :: t
  | c, [] => ⟨[], by by_cases h : pyWs c <;> simp [collapseWs, h]⟩
  | c, c₂ :: cs => by
    by_cases h₁ : pyWs c
    · by_cases h₂ : pyWs c₂
      · obtain ⟨t, ht⟩ := collapse_head c₂ cs
        exact ⟨t, by simp [collapseWs, h₁, h₂, ht]⟩
      · exact ⟨collapseWs (c₂ :: cs), by simp [collapseWs, h₁, h₂]⟩
    · exact ⟨collapseWs (c₂ :: cs), by simp [collapseWs, h₁]⟩

theorem collapse_chain : ∀ (l : List Char), List.Chain' noWsPair (collapseWs l)
  | [] => List.chain'_nil
  | [c] => by
    unfold collapseWs
    split <;> exact List.chain'_singleton _
  | c₁ :: c₂ :: cs => by
    unfold collapseWs
    by_cases h₁ : pyWs c₁
    · by_cases h₂ : pyWs c₂
      · rw [if_pos h₁, if_pos h₂]
        exact collapse_chain (c₂ :: cs)
      · rw [if_pos h₁, if_neg h₂]
        refine List.chain'_cons'.mpr ⟨?_, collapse_chain (c₂ :: cs)⟩
        intro y hy
        obtain ⟨t, ht⟩ := collapse_head c₂ cs
        rw [ht, if_neg h₂] at hy
        simp only [List.head?_cons, Option.mem_def, Option.some.injEq] at hy
        subst hy
        exact fun hc => h₂ hc.2
    · rw [if_neg h₁]
      refine List.chain'_cons'.mpr ⟨?_, collapse_chain (c₂ :: cs)⟩
      intro y hy
      exact fun hc => h₁ hc.1

theorem collapse_fixed : ∀ {l : List Char},
    (∀ c ∈ l, pyWs c → c = ' ') → List.Chain' noWsPair l → collapseWs l = l
  | [], _, _ => rfl
  | [c], hws, _ => by
    unfold collapseWs
    split
    · next h => rw [hws c (List.mem_singleton_self c) h]
    · rfl
  | c₁ :: c₂ :: cs, hws, hch => by
    unfold collapseWs
    have hch' := List.chain'_cons.mp hch
    by_cases h₁ : pyWs c₁
    · have h₂ : ¬ pyWs c₂ = true := fun h₂ => hch'.1 ⟨h₁, h₂⟩
      rw [if_pos h₁, if_neg h₂,
        collapse_fixed (fun c hc hw => hws c (List.mem_cons_of_mem _ hc) hw) hch'.2,
        hws c₁ (List.mem_cons_self _ _) h₁]
    · rw [if_neg h₁,
        collapse_fixed (fun c hc hw => hws c (List.mem_cons_of_mem _ hc) hw) hch'.2]

theorem mem_pyStrip {l : List Char} {c : Char} (h : c ∈ pyStrip l) : c ∈ l := by
  unfold pyStrip at h
  rw [List.mem_reverse] at h
  have h₁ := (List.dropWhile_sublist pyWs).subset h
  rw [List.mem_reverse] at h₁
  exact (List.dropWhile_sublist pyWs).subset h₁

theorem chain'_rev {m : List Char} (hm : List.Chain' noWsPair m) :
    List.Chain' noWsPair m.reverse := by
  rw [List.chain'_reverse]
  exact hm.imp (fun a b hab => fun hc => hab ⟨hc.2, hc.1⟩)

theorem chain'_pyStrip {l : List Char} (h : List.Chain' noWsPair l) :
    List.Chain' noWsPair (pyStrip l) := by
  unfold pyStrip
  exact chain'_rev (((chain'_rev (h.suffix (List.dropWhile_suffix pyWs))).suffix
    (List.dropWhile_suffix pyWs)))

theorem pyStrip_last_not {l : List Char} {c : Char}
    (h : (pyStrip l).getLast? = some c) : pyWs c = false := by
  unfold pyStrip at h
  rw [List.getLast?_reverse] at h
  have h₂ := List.head?_dropWhile_not pyWs ((l.dropWhile pyWs).reverse)
  rw [h] at h₂
  exact h₂

theorem pyStrip_head_not {l : List Char} {c : Char}
    (h : (pyStrip l).head? = some c) : pyWs c = false := by
  unfold pyStrip at h
  rw [List.head?_reverse] at h
  rcases hY : (l.dropWhile pyWs).reverse.dropWhile pyWs with _ | ⟨y, ys⟩
  · rw [hY] at h
    cases h
  · have hsuff := List.dropWhile_suffix (l := (l.dropWhile pyWs).reverse) pyWs
    rw [hY] at hsuff h
    obtain ⟨pre, hpre⟩ := hsuff
    have hlast : (l.dropWhile pyWs).reverse.getLast? = some c := by
      rw [← hpre, List.getLast?_append, h]
      rfl
    rw [List.getLast?_reverse] at hlast
    have h₂ := List.head?_dropWhile_not pyWs l
    rw [hlast] at h₂
    exact h₂

theorem dropWhile_eq_self_of_head {l : List Char}
    (h : ∀ c, l.head? = some c → pyWs c = false) : l.dropWhile pyWs = l := by
  cases l with
  | nil => rfl
  | cons c cs =>
    rw [List.dropWhile_cons_of_neg]
    simp [h c rfl]

theorem pyStrip_fixed {l : List Char}
    (hh : ∀ c, l.head? = some c → pyWs c = false)
    (hl : ∀ c, l.getLast? = some c → pyWs c = false) : pyStrip l = l := by
  unfold pyStrip
  rw [dropWhile_eq_self_of_head hh]
  rw [dropWhile_eq_self_of_head (fun c hc => hl c (by rwa [List.head?_reverse] at hc))]
  exact List.reverse_reverse l

theorem toNat_ofNat_small {n : Nat} (h : n < 55296) : (Char.ofNat n).toNat = n := by
  have hv : n.isValidChar := Or.inl h
  simp [Char.ofNat, hv, Char.ofNatAux, Char.toNat, UInt32.toNat]

theorem toLower_toLower (c : Char) : c.toLower.toLower = c.toLower := by
  unfold Char.toLower
  by_cases h : c.toNat ≥ 65 ∧ c.toNat ≤ 90
  · rw [if_pos h]
    have hv : ((Char.ofNat (c.toNat + 32)).toNat) = c.toNat + 32 :=
      toNat_ofNat_small (by omega)
    rw [if_neg (by omega)]
  · rw [if_neg h, if_neg h]

theorem normBasicL_facts (l : List Char) :
    (∀ c ∈ normBasicL l, c.toLower = c) ∧ (∀ c ∈ normBasicL l, pyWs c → c = ' ') ∧
      List.Chain' noWsPair (normBasicL l) := by
  refine ⟨?_, ?_, chain'_pyStrip (collapse_chain _)⟩
  · intro c hc
    rcases collapse_mem (mem_pyStrip hc) with rfl | hm
    · rfl
    · obtain ⟨d, _, rfl⟩ := List.mem_map.mp hm
      exact toLower_toLower d
  · intro c hc hw
    exact collapse_ws_space (mem_pyStrip hc) hw

theorem normBasicL_idem (l : List Char) : normBasicL (normBasicL l) = normBasicL l := by
  obtain ⟨hfix, hws, hch⟩ := normBasicL_facts l
  show pyStrip (collapseWs ((normBasicL l).map Char.toLower)) = normBasicL l
  rw [List.map_congr_left hfix, List.map_id']
  rw [collapse_fixed hws hch]
  exact pyStrip_fixed (fun c hc => pyStrip_head_not hc) (fun c hc => pyStrip_last_not hc)

theorem subNonWord_mem : ∀ {l : List Char} {c : Char}, c ∈ subNonWord l → c = ' ' ∨ c ∈ l
  | [], c, h => by cases h
  | [d], c, h => by
    unfold subNonWord at h
    split at h
    · exact Or.inr h
    · exact Or.inl (List.mem_singleton.mp h)
  | c₁ :: c₂ :: cs, c, h => by
    unfold subNonWord at h
    split at h
    · rcases List.mem_cons.mp h with rfl | h
      · exact Or.inr (List.mem_cons_self _ _)
      · rcases subNonWord_mem h with h | h
        · exact Or.inl h
        · exact Or.inr (List.mem_cons_of_mem _ h)
    · split at h
      · rcases List.mem_cons.mp h with rfl | h
        · exact Or.inl rfl
        · rcases subNonWord_mem h with h | h
          · exact Or.inl h
          · exact Or.inr (List.mem_cons_of_mem _ h)
      · rcases subNonWord_mem h with h | h
        · exact Or.inl h
        · exact Or.inr (List.mem_cons_of_mem _ h)

theorem subNonWord_chars : ∀ {l : List Char} {c : Char}, c ∈ subNonWord l →
    nameChar c = true ∨ c = ' '
  | [], c, h => by cases h
  | [d], c, h => by
    unfold subNonWord at h
    split at h
    · next hw => exact Or.inl (List.mem_singleton.mp h ▸ hw)
    · exact Or.inr (List.mem_singleton.mp h)
  | c₁ :: c₂ :: cs, c, h => by
    unfold subNonWord at h
    split at h
    · next hw =>
      rcases List.mem_cons.mp h with rfl | h
      · exact Or.inl hw
      · exact subNonWord_chars h
    · split at h
      · rcases List.mem_cons.mp h with rfl | h
        · exact Or.inr rfl
        · exact subNonWord_chars h
      · exact subNonWord_chars h

theorem subNonWord_fixed : ∀ {l : List Char},
    (∀ c ∈ l, nameChar c = true ∨ c = ' ') → List.Chain' wordPair l →
      subNonWord l = l
  | [], _, _ => rfl
  | [c], hc, _ => by
    unfold subNonWord
    rcases hc c (List.mem_singleton_self c) with hw | rfl
    · rw [if_pos hw]
    · rw [if_neg (by decide)]
  | c₁ :: c₂ :: cs, hc, hch => by
    unfold subNonWord
    have hch' := List.chain'_cons.mp hch
    have ih := subNonWord_fixed (fun c h => hc c (List.mem_cons_of_mem _ h)) hch'.2
    rcases hc c₁ (List.mem_cons_self _ _) with hw | rfl
    · rw [if_pos hw, ih]
    · have hw₂ : nameChar c₂ = true := by
        rcases hch'.1 with h | h
        · exact absurd h (by decide)
        · exact h
      rw [if_neg (by decide), if_pos hw₂, ih]

theorem pySplitGo_ne : ∀ {l acc : List Char} {w : List Char}, w ∈ pySplitGo acc l → w ≠ []
  | [], acc, w, h => by
    unfold pySplitGo at h
    split at h
    · cases h
    · next hne =>
      rw [List.mem_singleton.mp h]
      exact hne
  | c :: cs, acc, w, h => by
    unfold pySplitGo at h
    split at h
    · split at h
      · exact pySplitGo_ne h
      · next hne =>
        rcases List.mem_cons.mp h with rfl | h
        · exact hne
        · exact pySplitGo_ne h
    · exact pySplitGo_ne h

theorem pySplitGo_chars : ∀ {l acc : List Char} {w : List Char} {c : Char},
    w ∈ pySplitGo acc l → c ∈ w → c ∈ acc ∨ c ∈ l
  | [], acc, w, c, h, hc => by
    unfold pySplitGo at h
    split at h
    · cases h
    · rw [List.mem_singleton.mp h] at hc
      exact Or.inl hc
  | d :: cs, acc, w, c, h, hc => by
    unfold pySplitGo at h
    split at h
    · split at h
      · rcases pySplitGo_chars h hc with h' | h'
        · cases h'
        · exact Or.inr (List.mem_cons_of_mem _ h')
      · rcases List.mem_cons.mp h with rfl | h
        · exact Or.inl hc
        · rcases pySplitGo_chars h hc with h' | h'
          · cases h'
          · exact Or.inr (List.mem_cons_of_mem _ h')
    · rcases pySplitGo_chars h hc with h' | h'
      · rcases List.mem_append.mp h' with h'' | h''
        · exact Or.inl h''
        · exact Or.inr (List.mem_singleton.mp h'' ▸ List.mem_cons_self _ _)
      · exact Or.inr (List.mem_cons_of_mem _ h')

theorem pySplitGo_no_ws : ∀ {l acc : List Char} {w : List Char},
    (∀ c ∈ acc, pyWs c = false) → w ∈ pySplitGo acc l → ∀ c ∈ w, pyWs c = false
  | [], acc, w, hacc, h, c, hc => by
    unfold pySplitGo at h
    split at h
    · cases h
    · exact hacc c (List.mem_singleton.mp h ▸ hc)
  | d :: cs, acc, w, hacc, h, c, hc => by
    unfold pySplitGo at h
    split at h
    · split at h
      · exact pySplitGo_no_ws (by intro x hx; cases hx) h c hc
      · rcases List.mem_cons.mp h with rfl | h
        · exact hacc c hc
        · exact pySplitGo_no_ws (by intro x hx; cases hx) h c hc
    · next hd =>
      refine pySplitGo_no_ws ?_ h c hc
      intro x hx
      rcases List.mem_append.mp hx with h' | h'
      · exact hacc x h'
      · rw [List.mem_singleton.mp h']
        simpa using hd

theorem pySplitGo_nil (acc : List Char) :
    pySplitGo acc [] = if acc = [] then [] else [acc] := rfl

theorem pySplitGo_cons (acc : List Char) (c : Char) (cs : List Char) :
    pySplitGo acc (c :: cs) =
      if pyWs c then (if acc = [] then pySplitGo [] cs else acc :: pySplitGo [] cs)
      else pySplitGo (acc ++ [c]) cs := rfl

theorem pySplitGo_append_word : ∀ {w : List Char}, (∀ c ∈ w, pyWs c = false) →
    ∀ (acc l : List Char), pySplitGo acc (w ++ l) = pySplitGo (acc ++ w) l
  | [], _, acc, l => by simp
  | c :: w', hw, acc, l => by
    have hc : pyWs c = false := hw c (List.mem_cons_self _ _)
    show pySplitGo acc (c :: (w' ++ l)) = _
    rw [pySplitGo_cons, if_neg (by simp [hc])]
    rw [pySplitGo_append_word (fun x hx => hw x (List.mem_cons_of_mem _ hx)) (acc ++ [c]) l]
    simp

theorem pySplit_joinWords : ∀ {ws : List (List Char)},
    (∀ w ∈ ws, w ≠ [] ∧ ∀ c ∈ w, pyWs c = false) → pySplit (joinWords ws) = ws
  | [], _ => rfl
  | [w], h => by
    have hw := h w (List.mem_singleton_self w)
    show pySplitGo [] (joinWords [w]) = [w]
    have hjw : joinWords [w] = w ++ [] := by simp [joinWords]
    rw [hjw, pySplitGo_append_word hw.2 [] [], pySplitGo_nil,
      if_neg (by simpa using hw.1)]
    simp
  | w :: w' :: ws', h => by
    have hw := h w (List.mem_cons_self _ _)
    show pySplitGo [] (joinWords (w :: w' :: ws')) = _
    have hjw : joinWords (w :: w' :: ws') = w ++ (' ' :: joinWords (w' :: ws')) := rfl
    rw [hjw, pySplitGo_append_word hw.2 [] _, pySplitGo_cons,
      if_pos (show pyWs ' ' = true by decide), if_neg (by simpa using hw.1)]
    have ih := pySplit_joinWords (fun u hu => h u (List.mem_cons_of_mem _ hu))
    unfold pySplit at ih
    rw [ih]
    simp

theorem mem_joinWords : ∀ {ws : List (List Char)} {c : Char}, c ∈ joinWords ws →
    c = ' ' ∨ ∃ w ∈ ws, c ∈ w
  | [], c, h => by cases h
  | [w], c, h => Or.inr ⟨w, List.mem_singleton_self w, h⟩
  | w :: w' :: ws', c, h => by
    rcases List.mem_append.mp h with h | h
    · exact Or.inr ⟨w, List.mem_cons_self _ _, h⟩
    · rcases List.mem_cons.mp h with rfl | h
      · exact Or.inl rfl
      · rcases mem_joinWords h with h | ⟨u, hu, hc⟩
        · exact Or.inl h
        · exact Or.inr ⟨u, List.mem_cons_of_mem _ hu, hc⟩

theorem chainAllWord : ∀ {l : List Char}, (∀ c ∈ l, nameChar c = true) →
    List.Chain' wordPair l
  | [], _ => List.chain'_nil
  | [c], _ => List.chain'_singleton c
  | a :: b :: t, h => by
    refine List.chain'_cons.mpr ⟨Or.inl (h a (List.mem_cons_self _ _)), ?_⟩
    exact chainAllWord (fun c hc => h c (List.mem_cons_of_mem _ hc))

theorem head?_joinWords_cons {w : List Char} {ws : List (List Char)} (hw : w ≠ []) :
    (joinWords (w :: ws)).head? = w.head? := by
  cases ws with
  | nil => rfl
  | cons w' ws' =>
    show (w ++ ' ' :: joinWords (w' :: ws')).head? = w.head?
    rw [List.head?_append]
    cases w with
    | nil => exact absurd rfl hw
    | cons c cs => rfl

theorem chain'_joinWords : ∀ {ws : List (List Char)},
    (∀ w ∈ ws, w ≠ [] ∧ ∀ c ∈ w, nameChar c = true) →
      List.Chain' wordPair (joinWords ws)
  | [], _ => List.chain'_nil
  | [w], h => chainAllWord (h w (List.mem_singleton_self w)).2
  | w :: w' :: ws', h => by
    have hw := h w (List.mem_cons_self _ _)
    have hrest : ∀ u ∈ w' :: ws', u ≠ [] ∧ ∀ c ∈ u, nameChar c = true :=
      fun u hu => h u (List.mem_cons_of_mem _ hu)
    show List.Chain' wordPair (w ++ ' ' :: joinWords (w' :: ws'))
    rw [List.chain'_append]
    refine ⟨chainAllWord hw.2, ?_, ?_⟩
    · refine List.chain'_cons'.mpr ⟨?_, chain'_joinWords hrest⟩
      intro y hy
      rw [head?_joinWords_cons (hrest w' (List.mem_cons_self _ _)).1] at hy
      have hyw : y ∈ w' := List.mem_of_mem_head? hy
      exact Or.inr ((hrest w' (List.mem_cons_self _ _)).2 y hyw)
    · intro x hx y hy
      have hxw : x ∈ w := List.mem_of_getLast?_eq_some hx
      exact Or.inl (hw.2 x hxw)

theorem normNameW_facts (l : List Char) :
    ∀ w ∈ (pySplit (subNonWord (l.map Char.toLower))).filter
        (fun w => w ∉ stopwordsMatching),
      w ≠ [] ∧ (∀ c ∈ w, pyWs c = false) ∧ (∀ c ∈ w, nameChar c = true) ∧
        (∀ c ∈ w, c.toLower = c) := by
  intro w hw
  have hsplit : w ∈ pySplit (subNonWord (l.map Char.toLower)) :=
    (List.mem_filter.mp hw).1
  have hne : w ≠ [] := pySplitGo_ne hsplit
  have hnw : ∀ c ∈ w, pyWs c = false :=
    pySplitGo_no_ws (by intro x hx; cases hx) hsplit
  refine ⟨hne, hnw, ?_, ?_⟩
  · intro c hc
    rcases pySplitGo_chars hsplit hc with h | h
    · cases h
    · rcases subNonWord_chars h with h | rfl
      · exact h
      · exact absurd (hnw _ hc) (by decide)
  · intro c hc
    rcases pySplitGo_chars hsplit hc with h | h
    · cases h
    · rcases subNonWord_mem h with rfl | h
      · rfl
      · obtain ⟨d, _, rfl⟩ := List.mem_map.mp h
        exact toLower_toLower d

theorem normNameL_idem (l : List Char) : normNameL (normNameL l) = normNameL l := by
  have hW := normNameW_facts l
  set W := (pySplit (subNonWord (l.map Char.toLower))).filter
    (fun w => w ∉ stopwordsMatching) with hWdef
  show joinWords
      ((pySplit (subNonWord ((joinWords W).map Char.toLower))).filter
        (fun w => w ∉ stopwordsMatching)) = joinWords W
  have h₁ : (joinWords W).map Char.toLower = joinWords W := by
    rw [List.map_congr_left, List.map_id']
    intro c hc
    rcases mem_joinWords hc with rfl | ⟨w, hw, hcw⟩
    · rfl
    · exact (hW w hw).2.2.2 c hcw
  rw [h₁]
  have h₂ : subNonWord (joinWords W) = joinWords W := by
    apply subNonWord_fixed
    · intro c hc
      rcases mem_joinWords hc with rfl | ⟨w, hw, hcw⟩
      · exact Or.inr rfl
      · exact Or.inl ((hW w hw).2.2.1 c hcw)
    · exact chain'_joinWords (fun w hw => ⟨(hW w hw).1, (hW w hw).2.2.1⟩)
  rw [h₂]
  have h₃ : pySplit (joinWords W) = W :=
    pySplit_joinWords (fun w hw => ⟨(hW w hw).1, (hW w hw).2.1⟩)
  rw [h₃]
  have h₄ : W.filter (fun w => w ∉ stopwordsMatching) = W := by
    rw [List.filter_eq_self]
    intro w hw
    rw [hWdef] at hw
    exact (List.mem_filter.mp hw).2
  rw [h₄]

/-- C8.  Both text normalisers are idempotent: applying `_norm_name`
(`matching.py`) or `_norm_basic` (`consolidate_events.py`) twice equals
applying it once. -/
theorem normalize_idempotent (s : String) :
    normName (normName s) = normName s ∧
      normBasic (some (normBasic (some s))) = normBasic (some s) := by
  constructor
  · exact congrArg String.mk (normNameL_idem s.data)
  · by_cases hs : s = ""
    · rw [hs]
      rfl
    · have h₁ : normBasic (some s) = ⟨normBasicL s.data⟩ := by
        show (if s = "" then "" else (⟨normBasicL s.data⟩ : String)) = ⟨normBasicL s.data⟩
        rw [if_neg hs]
      rw [h₁]
      by_cases ht : normBasicL s.data = []
      · rw [ht]
        rfl
      · show (if (⟨normBasicL s.data⟩ : String) = "" then ""
            else (⟨normBasicL (⟨normBasicL s.data⟩ : String).data⟩ : String)) =
            ⟨normBasicL s.data⟩
        split
        · next heq => exact absurd (congrArg String.data heq) ht
        · exact congrArg String.mk (normBasicL_idem s.data)

/-!  The tokeniser invariant: `_artist_tokens` returns a duplicate-free
set of word-character-only tokens longer than two characters that avoid
`_STOPWORDS`. -/

theorem mem_setAdd {l : List String} {t x : String} (h : x ∈ setAdd l t) :
    x ∈ l ∨ x = t := by
  unfold setAdd at h
  split at h
  · exact Or.inl h
  · rcases List.mem_append.mp h with h | h
    · exact Or.inl h
    · exact Or.inr (List.mem_singleton.mp h)

theorem setAdd_nodup {l : List String} {t : String} (h : l.Nodup) :
    (setAdd l t).Nodup := by
  unfold setAdd
  split
  · exact h
  · next hne =>
    refine List.Nodup.append h (List.nodup_singleton t) ?_
    intro x hx hx'
    rw [List.mem_singleton.mp hx'] at hx
    exact hne hx

theorem wordChar_not_ws {c : Char} (h : pyWordChar c = true) : pyWs c = false := by
  cases hpy : pyWs c
  · rfl
  · exfalso
    simp only [pyWs, Bool.or_eq_true, decide_eq_true_eq] at hpy
    rcases hpy with ((((rfl | rfl) | rfl) | rfl) | rfl) | rfl <;>
      exact absurd h (by decide)

theorem punctToSpace_chars {l : List Char} {c : Char} (h : c ∈ punctToSpace l) :
    pyWordChar c = true ∨ pyWs c = true := by
  unfold punctToSpace at h
  obtain ⟨d, _, rfl⟩ := List.mem_map.mp h
  by_cases hw : pyWordChar d = true
  · rw [if_pos (by simp [hw])]
    exact Or.inl hw
  · by_cases hs : pyWs d = true
    · rw [if_pos (by simp [hs])]
      exact Or.inr hs
    · rw [if_neg (by simp [hw, hs])]
      exact Or.inr (by decide)

theorem partWord_chars {ch : List Char} {w : List Char} {c : Char}
    (hw : w ∈ pySplit (pyStrip (punctToSpace ch))) (hc : c ∈ w) :
    pyWordChar c = true := by
  have hnw : pyWs c = false :=
    pySplitGo_no_ws (by intro x hx; cases hx) hw c hc
  rcases pySplitGo_chars hw hc with h | h
  · cases h
  · rcases punctToSpace_chars (mem_pyStrip h) with h' | h'
    · exact h'
    · rw [hnw] at h'
      cases h'

theorem partsFold_chars : ∀ (chunks : List (List Char)) (ps : List (List Char)),
    (∀ w ∈ ps, ∀ c ∈ w, pyWordChar c = true) →
      ∀ w ∈ chunks.foldl
          (fun ps ch =>
            let ch := pyStrip (punctToSpace ch)
            if ch = [] then ps else ps ++ pySplit ch) ps,
        ∀ c ∈ w, pyWordChar c = true
  | [], _, hps => hps
  | ch :: rest, ps, hps => by
    rw [List.foldl_cons]
    refine partsFold_chars rest _ ?_
    show ∀ w ∈ (if pyStrip (punctToSpace ch) = [] then ps
        else ps ++ pySplit (pyStrip (punctToSpace ch))), ∀ c ∈ w, pyWordChar c = true
    by_cases hch : pyStrip (punctToSpace ch) = []
    · rw [if_pos hch]
      exact hps
    · rw [if_neg hch]
      intro w hw
      rcases List.mem_append.mp hw with h | h
      · exact hps w h
      · exact fun c hc => partWord_chars h hc

theorem tokenStep_inv {tks : List String} {t : List Char}
    (h₁ : tks.Nodup)
    (h₂ : ∀ u ∈ tks, tokenOk u ∧ ∀ c ∈ u.data, pyWordChar c = true)
    (h₃ : ∀ c ∈ t, pyWordChar c = true) :
    (tokenStep tks t).Nodup ∧
      ∀ u ∈ tokenStep tks t, tokenOk u ∧ ∀ c ∈ u.data, pyWordChar c = true := by
  unfold tokenStep
  split
  · exact ⟨h₁, h₂⟩
  · split
    · exact ⟨h₁, h₂⟩
    · next hlen hstop =>
      refine ⟨setAdd_nodup h₁, ?_⟩
      intro u hu
      rcases mem_setAdd hu with h | h
      · exact h₂ u h
      · subst h
        exact ⟨⟨Nat.lt_of_not_le hlen, hstop⟩, h₃⟩

theorem tokenFold_inv : ∀ (parts : List (List Char)),
    (∀ w ∈ parts, ∀ c ∈ w, pyWordChar c = true) →
    ∀ tks : List String, tks.Nodup →
      (∀ u ∈ tks, tokenOk u ∧ ∀ c ∈ u.data, pyWordChar c = true) →
      (parts.foldl tokenStep tks).Nodup ∧
        ∀ u ∈ parts.foldl tokenStep tks,
          tokenOk u ∧ ∀ c ∈ u.data, pyWordChar c = true
  | [], _, tks, h₁, h₂ => ⟨h₁, h₂⟩
  | p :: ps, hp, tks, h₁, h₂ => by
    rw [List.foldl_cons]
    have h := tokenStep_inv (t := p) h₁ h₂ (hp p (List.mem_cons_self _ _))
    exact tokenFold_inv ps (fun w hw => hp w (List.mem_cons_of_mem _ hw)) _ h.1 h.2

theorem tokensOfField_inv (raw : Option String) {tks : List String}
    (h₁ : tks.Nodup)
    (h₂ : ∀ u ∈ tks, tokenOk u ∧ ∀ c ∈ u.data, pyWordChar c = true) :
    (tokensOfField tks raw).Nodup ∧
      ∀ u ∈ tokensOfField tks raw,
        tokenOk u ∧ ∀ c ∈ u.data, pyWordChar c = true := by
  cases raw with
  | none => exact ⟨h₁, h₂⟩
  | some r =>
    by_cases hr : r = ""
    · simp only [tokensOfField, hr, if_pos]
      exact ⟨h₁, h₂⟩
    · simp only [tokensOfField, if_neg hr]
      exact tokenFold_inv _
        (partsFold_chars _ [] (by intro w hw; cases hw)) tks h₁ h₂

theorem artistTokens_fold_inv : ∀ (fields : List (Option String)),
    ∀ tks : List String, tks.Nodup →
      (∀ u ∈ tks, tokenOk u ∧ ∀ c ∈ u.data, pyWordChar c = true) →
      (fields.foldl tokensOfField tks).Nodup ∧
        ∀ u ∈ fields.foldl tokensOfField tks,
          tokenOk u ∧ ∀ c ∈ u.data, pyWordChar c = true
  | [], tks, h₁, h₂ => ⟨h₁, h₂⟩
  | f :: fs, tks, h₁, h₂ => by
    rw [List.foldl_cons]
    have h := tokensOfField_inv f h₁ h₂
    exact artistTokens_fold_inv fs _ h.1 h.2

/-- C6 (amended).  Every token returned by `_artist_tokens` is longer than
two characters, is not a member of the stopword set the function actually
consults (`_STOPWORDS` of `consolidate_events.py`), and consists solely of
word characters, so it contains none of the multi-value separators the
function splits on — comma, slash, ampersand, plus, at-sign, en/em dash,
hyphen, whitespace (and the word-boundary `feat`/`ft`/`with`/`x`, which
are rewritten to commas before splitting); the result is a set:
duplicate-free.  (The generic words `live`, `tour`, `concert` belong to
the other module's stopword set and are not filtered here; see the
counterexample.) -/
theorem tokenizer_contract (fields : List (Option String)) :
    (artistTokens fields).Nodup ∧
      ∀ t ∈ artistTokens fields,
        (2 < t.length ∧ t ∉ stopwordsConsolidate) ∧
          (∀ c ∈ t.data, pyWordChar c = true) ∧
          ∀ c ∈ t.data,
            c ≠ ',' ∧ c ≠ '/' ∧ c ≠ '&' ∧ c ≠ '+' ∧ c ≠ '@' ∧
              c ≠ '-' ∧ c ≠ '–' ∧ c ≠ '—' ∧ pyWs c = false := by
  have h := artistTokens_fold_inv fields [] List.nodup_nil (by intro u hu; cases hu)
  refine ⟨h.1, fun t ht => ?_⟩
  obtain ⟨hok, hw⟩ := h.2 t ht
  refine ⟨hok, hw, fun c hc => ?_⟩
  have hwc := hw c hc
  exact ⟨fun he => absurd (he ▸ hwc) (by decide),
    fun he => absurd (he ▸ hwc) (by decide),
    fun he => absurd (he ▸ hwc) (by decide),
    fun he => absurd (he ▸ hwc) (by decide),
    fun he => absurd (he ▸ hwc) (by decide),
    fun he => absurd (he ▸ hwc) (by decide),
    fun he => absurd (he ▸ hwc) (by decide),
    fun he => absurd (he ▸ hwc) (by decide),
    wordChar_not_ws hwc⟩

/-- Witness for C6 at a concrete input. -/
theorem tokenizer_contract_witness :
    ("daft" ∈ artistTokens [some "Daft Punk"]) ∧
      ((2 < "daft".length ∧ "daft" ∉ stopwordsConsolidate) ∧
        (∀ c ∈ "daft".data, pyWordChar c = true) ∧
        ∀ c ∈ "daft".data,
          c ≠ ',' ∧ c ≠ '/' ∧ c ≠ '&' ∧ c ≠ '+' ∧ c ≠ '@' ∧
            c ≠ '-' ∧ c ≠ '–' ∧ c ≠ '—' ∧ pyWs c = false) :=
  ⟨by decide, (tokenizer_contract [some "Daft Punk"]).2 "daft" (by decide)⟩

/-- Counterexample for C6 as stated: the tokeniser keeps the word `live`,
although the spec counts it among the stopwords the tokeniser discards (it
belongs to `STOPWORDS` of `matching.py`, not to `_STOPWORDS` of
`consolidate_events.py`). -/
theorem tokenizer_stopword_cx :
    "live" ∈ artistTokens [some "live"] ∧ "live".data ∈ stopwordsMatching := by
  constructor
  · decide
  · decide

/-!  Facts about the shotgun day index built by `consolidate_events`. -/

theorem indexFlatten_cons (p : String × List (NormalizedEvent × List String))
    (idx : DayIndex) : indexFlatten (p :: idx) = p.2 ++ indexFlatten idx := by
  simp [indexFlatten]

theorem indexFlatten_append (idx idx' : DayIndex) :
    indexFlatten (idx ++ idx') = indexFlatten idx ++ indexFlatten idx' := by
  simp [indexFlatten]

theorem map_bucketAdd_of_not_mem {idx : DayIndex} {k : String}
    {v : NormalizedEvent × List String} (h : ∀ q ∈ idx, q.1 ≠ k) :
    idx.map (fun p => if p.1 = k then (p.1, p.2 ++ [v]) else p) = idx := by
  rw [List.map_congr_left (g := fun q => q) (fun q hq => by rw [if_neg (h q hq)]),
    List.map_id']

theorem indexAdd_absent {idx : DayIndex} {k : String}
    {v : NormalizedEvent × List String}
    (h : (idx.find? (fun p => p.1 = k)).isSome = false) :
    indexAdd idx k v = idx ++ [(k, [v])] := by
  unfold indexAdd
  rw [if_neg (by simp [h])]

theorem indexAdd_present {idx : DayIndex} {k : String}
    {v : NormalizedEvent × List String} (hk : (idx.map Prod.fst).Nodup)
    (hmem : (idx.find? (fun p => p.1 = k)).isSome) :
    (indexAdd idx k v).map Prod.fst = idx.map Prod.fst ∧
      (indexFlatten (indexAdd idx k v)).Perm (indexFlatten idx ++ [v]) := by
  unfold indexAdd
  rw [if_pos hmem]
  constructor
  · rw [List.map_map]
    exact List.map_congr_left (fun q hq => by by_cases h : q.1 = k <;> simp [h])
  · induction idx with
    | nil => simp at hmem
    | cons p idx' ih =>
      rw [List.map_cons]
      by_cases hp : p.1 = k
      · have hknodup := (List.nodup_cons.mp hk).1
        have hrest : ∀ q ∈ idx', q.1 ≠ k := by
          intro q hq hqk
          exact hknodup (hp ▸ hqk ▸ List.mem_map_of_mem Prod.fst hq)
        rw [if_pos hp, map_bucketAdd_of_not_mem hrest,
          indexFlatten_cons, indexFlatten_cons, List.append_assoc,
          List.append_assoc]
        exact List.Perm.append_left _ List.perm_append_comm
      · have hmem' : (idx'.find? (fun q => q.1 = k)).isSome := by
          have hm := hmem
          rw [List.find?_cons] at hm
          simpa [hp] using hm
        have ihperm := ih (List.nodup_cons.mp hk).2 hmem'
        rw [if_neg hp, indexFlatten_cons, indexFlatten_cons, List.append_assoc]
        exact List.Perm.append_left _ ihperm

theorem indexAdd_inv {idx : DayIndex} {d : String} {sg : NormalizedEvent}
    (hIdx : IdxInv idx) (hk : (idx.map Prod.fst).Nodup) (hd : d ≠ "")
    (hdate : dateStr (some sg) = d) :
    IdxInv (indexAdd idx d (sg, recTokens sg)) ∧
      ((indexAdd idx d (sg, recTokens sg)).map Prod.fst).Nodup ∧
      (indexFlatten (indexAdd idx d (sg, recTokens sg))).Perm
        (indexFlatten idx ++ [(sg, recTokens sg)]) := by
  by_cases hfind : ((idx.find? (fun p => p.1 = d)).isSome : Prop)
  · obtain ⟨hkeys, hperm⟩ := indexAdd_present (v := (sg, recTokens sg)) hk hfind
    refine ⟨?_, by rw [hkeys]; exact hk, hperm⟩
    intro p hp
    unfold indexAdd at hp
    rw [if_pos hfind] at hp
    obtain ⟨q, hq, rfl⟩ := List.mem_map.mp hp
    by_cases hqd : q.1 = d
    · rw [if_pos hqd]
      refine ⟨(hIdx q hq).1, ?_⟩
      intro r hr
      rcases List.mem_append.mp hr with hr | hr
      · exact (hIdx q hq).2 r hr
      · rw [List.mem_singleton.mp hr]
        exact ⟨hqd ▸ hdate, rfl⟩
    · rw [if_neg hqd]
      exact hIdx q hq
  · have hnone : idx.find? (fun p => p.1 = d) = none :=
      Option.not_isSome_iff_eq_none.mp hfind
    have habs : indexAdd idx d (sg, recTokens sg) = idx ++ [(d, [(sg, recTokens sg)])] :=
      indexAdd_absent (by simp [hnone])
    rw [habs]
    refine ⟨?_, ?_, ?_⟩
    · intro p hp
      rcases List.mem_append.mp hp with hp | hp
      · exact hIdx p hp
      · rw [List.mem_singleton.mp hp]
        refine ⟨hd, ?_⟩
        intro r hr
        rw [List.mem_singleton.mp hr]
        exact ⟨hdate, rfl⟩
    · rw [List.map_append]
      refine List.Nodup.append hk (by simp) ?_
      intro x hx hx'
      simp only [List.map_cons, List.map_nil, List.mem_singleton] at hx'
      subst hx'
      obtain ⟨q, hq, hq'⟩ := List.mem_map.mp hx
      exact (List.find?_eq_none.mp hnone q hq) (by simp [hq'])
    · rw [indexFlatten_append]
      have : indexFlatten [(d, [(sg, recTokens sg)])] = [(sg, recTokens sg)] := by
        simp [indexFlatten]
      rw [this]

theorem buildIndex_fold : ∀ (A : List NormalizedEvent) (idx : DayIndex)
      (nd : List (NormalizedEvent × List String)),
    IdxInv idx → NdInv nd → (idx.map Prod.fst).Nodup →
      IdxInv (A.foldl indexStep (idx, nd)).1 ∧
        NdInv (A.foldl indexStep (idx, nd)).2 ∧
        ((A.foldl indexStep (idx, nd)).1.map Prod.fst).Nodup ∧
        (candsOf (A.foldl indexStep (idx, nd)).1
            (A.foldl indexStep (idx, nd)).2).Perm
          (candsOf idx nd ++ A.map (fun sg => (sg, recTokens sg)))
  | [], idx, nd, hIdx, hNd, hk => ⟨hIdx, hNd, hk, by simp⟩
  | sg :: A', idx, nd, hIdx, hNd, hk => by
    rw [List.foldl_cons]
    by_cases hd : dateStr (some sg) = ""
    · have hstep : indexStep (idx, nd) sg = (idx, nd ++ [(sg, recTokens sg)]) := by
        unfold indexStep
        rw [if_pos hd]
      rw [hstep]
      have hNd' : NdInv (nd ++ [(sg, recTokens sg)]) := by
        intro q hq
        rcases List.mem_append.mp hq with hq | hq
        · exact hNd q hq
        · rw [List.mem_singleton.mp hq]
          exact ⟨hd, rfl⟩
      obtain ⟨h₁, h₂, h₃, h₄⟩ := buildIndex_fold A' idx (nd ++ [(sg, recTokens sg)]) hIdx hNd' hk
      refine ⟨h₁, h₂, h₃, ?_⟩
      refine h₄.trans (List.Perm.of_eq ?_)
      unfold candsOf
      rw [List.map_cons, ← List.append_assoc]
      simp
    · have hstep : indexStep (idx, nd) sg = (indexAdd idx (dateStr (some sg)) (sg, recTokens sg), nd) := by
        unfold indexStep
        rw [if_neg hd]
      rw [hstep]
      obtain ⟨hIdx', hk', hperm'⟩ := indexAdd_inv hIdx hk hd rfl
      obtain ⟨h₁, h₂, h₃, h₄⟩ := buildIndex_fold A'
        (indexAdd idx (dateStr (some sg)) (sg, recTokens sg)) nd hIdx' hNd hk'
      refine ⟨h₁, h₂, h₃, h₄.trans ?_⟩
      have step1 : (candsOf (indexAdd idx (dateStr (some sg)) (sg, recTokens sg)) nd).Perm
          (candsOf idx nd ++ [(sg, recTokens sg)]) := by
        unfold candsOf
        refine (List.Perm.append hperm' (List.Perm.refl nd)).trans ?_
        rw [List.append_assoc, List.append_assoc]
        exact List.Perm.append_left _ List.perm_append_comm
      refine (List.Perm.append step1
        (List.Perm.refl (A'.map (fun sg => (sg, recTokens sg))))).trans
        (List.Perm.of_eq ?_)
      rw [List.map_cons, List.append_assoc]
      rfl

theorem buildIndex_facts (A : List NormalizedEvent) :
    IdxInv (buildIndex A).1 ∧ NdInv (buildIndex A).2 ∧
      ((buildIndex A).1.map Prod.fst).Nodup ∧
      (candsOf (buildIndex A).1 (buildIndex A).2).Perm
        (A.map (fun sg => (sg, recTokens sg))) := by
  have h := buildIndex_fold A [] []
    (by intro p hp; cases hp) (by intro q hq; cases hq) List.nodup_nil
  refine ⟨h.1, h.2.1, h.2.2.1, h.2.2.2.trans (List.Perm.of_eq ?_)⟩
  simp [candsOf, indexFlatten]


theorem scanStep_some {used dcToks : List String}
    {st : Option (NormalizedEvent × Nat)} {p : NormalizedEvent × List String}
    {q : NormalizedEvent × Nat} (h : scanStep used dcToks st p = some q) :
    st = some q ∨
      (q.1.event_id_provider ∉ used ∧ q.1 = p.1 ∧ 0 < overlapCount dcToks p.2) := by
  unfold scanStep at h
  split at h
  · exact Or.inl h
  · next hu =>
    dsimp only at h
    by_cases hne : dcToks ≠ [] ∧ p.2 ≠ []
    · rw [if_pos hne] at h
      split at h
      · next hacc =>
        obtain rfl := Option.some.inj h
        exact Or.inr ⟨hu, rfl, hacc.1⟩
      · exact Or.inl h
    · rw [if_neg hne] at h
      split at h
      · next hacc => exact absurd hacc.1 (by simp)
      · exact Or.inl h

theorem scanFold_some : ∀ {cands : List (NormalizedEvent × List String)}
    {used dcToks : List String} {st : Option (NormalizedEvent × Nat)}
    {q : NormalizedEvent × Nat},
    cands.foldl (scanStep used dcToks) st = some q →
      st = some q ∨
        (q.1.event_id_provider ∉ used ∧
          ∃ tk, (q.1, tk) ∈ cands ∧ 0 < overlapCount dcToks tk)
  | [], _, _, _, _, h => Or.inl h
  | p :: rest, used, dcToks, st, q, h => by
    rw [List.foldl_cons] at h
    rcases scanFold_some h with h' | ⟨hu, tk, htk, hov⟩
    · rcases scanStep_some h' with h'' | ⟨hu, heq, hov⟩
      · exact Or.inl h''
      · exact Or.inr ⟨hu, p.2, heq ▸ List.mem_cons_self p rest, hov⟩
    · exact Or.inr ⟨hu, tk, List.mem_cons_of_mem p htk, hov⟩

theorem scanBest_some {used dcToks : List String}
    {cands : List (NormalizedEvent × List String)} {q : NormalizedEvent × Nat}
    (h : scanBest used dcToks cands = some q) :
    q.1.event_id_provider ∉ used ∧
      ∃ tk, (q.1, tk) ∈ cands ∧ 0 < overlapCount dcToks tk := by
  rcases scanFold_some h with h' | h'
  · cases h'
  · exact h'

theorem findBest_some {byDay : DayIndex}
    {noDate : List (NormalizedEvent × List String)} {used : List String}
    {d : String} {dcToks : List String} {sg : NormalizedEvent} {fwd : Bool}
    (h : findBest byDay noDate used d dcToks = some (sg, fwd)) :
    sg.event_id_provider ∉ used ∧
      ∃ tk, 0 < overlapCount dcToks tk ∧
        ((fwd = true ∧ (sg, tk) ∈ dayLookup byDay d) ∨
          (fwd = false ∧ (sg, tk) ∈ noDate)) := by
  unfold findBest at h
  rcases hb : scanBest used dcToks (dayLookup byDay d) with _ | ⟨q₁, q₂⟩
  · rw [hb] at h
    rcases hn : scanBest used dcToks noDate with _ | ⟨r₁, r₂⟩
    · rw [hn] at h
      cases h
    · rw [hn] at h
      cases h
      obtain ⟨hu, tk, htk, hov⟩ := scanBest_some hn
      exact ⟨hu, tk, hov, Or.inr ⟨rfl, htk⟩⟩
  · rw [hb] at h
    cases h
    obtain ⟨hu, tk, htk, hov⟩ := scanBest_some hb
    exact ⟨hu, tk, hov, Or.inl ⟨rfl, htk⟩⟩


theorem dayLookup_sub {idx : DayIndex} {d : String}
    {p : NormalizedEvent × List String} (h : p ∈ dayLookup idx d) :
    p ∈ indexFlatten idx := by
  unfold dayLookup at h
  rcases hf : idx.find? (fun q => q.1 = d) with _ | entry
  · rw [hf] at h
    cases h
  · rw [hf] at h
    unfold indexFlatten
    exact List.mem_flatten.mpr
      ⟨entry.2, List.mem_map_of_mem Prod.snd (List.mem_of_find?_eq_some hf), h⟩

theorem dayLookup_date {idx : DayIndex} {d : String}
    {p : NormalizedEvent × List String} (hIdx : IdxInv idx)
    (h : p ∈ dayLookup idx d) :
    dateStr (some p.1) = d ∧ p.2 = recTokens p.1 := by
  unfold dayLookup at h
  rcases hf : idx.find? (fun q => q.1 = d) with _ | entry
  · rw [hf] at h
    cases h
  · rw [hf] at h
    have hkey : entry.1 = d := by simpa using List.find?_some hf
    have hq := (hIdx entry (List.mem_of_find?_eq_some hf)).2 p h
    exact ⟨hkey ▸ hq.1, hq.2⟩

theorem setAdd_of_not_mem {l : List String} {t : String} (h : t ∉ l) :
    setAdd l t = l ++ [t] := by
  unfold setAdd
  rw [if_neg h]

theorem pass1Step_inv {byDay : DayIndex}
    {noDate : List (NormalizedEvent × List String)} (hIdx : IdxInv byDay)
    (hNd : NdInv noDate) {processed : List NormalizedEvent} {st : Pass1State}
    {dc : NormalizedEvent} (h : pass1Inv byDay noDate processed st)
    (hdc : dc.event_id_provider ∉ st.usedDc) :
    pass1Inv byDay noDate (processed ++ [dc]) (pass1Step byDay noDate st dc) := by
  obtain ⟨i1, i2, i3, i4, i5, i6⟩ := h
  have hmono : ∀ st' : Pass1State, pass1Inv byDay noDate processed st' →
      pass1Inv byDay noDate (processed ++ [dc]) st' := by
    intro st' ⟨j1, j2, j3, j4, j5, j6⟩
    refine ⟨j1, j2, j3, j4, ?_, ?_⟩
    · rw [List.map_append]
      exact j5.trans (List.sublist_append_left _ _)
    · intro r hr
      obtain ⟨sg, dc', fwd, h₁, h₂, h₃⟩ := j6 r hr
      exact ⟨sg, dc', fwd, h₁, List.mem_append_left _ h₂, h₃⟩
  unfold pass1Step
  by_cases hd : dateStr (some dc) = ""
  · rw [if_pos hd]
    exact hmono st ⟨i1, i2, i3, i4, i5, i6⟩
  · rw [if_neg hd]
    dsimp only
    rcases hf : findBest byDay noDate st.usedSg (dateStr (some dc)) (recTokens dc)
      with _ | ⟨sg, fwd⟩
    · exact hmono st ⟨i1, i2, i3, i4, i5, i6⟩
    · show pass1Inv byDay noDate (processed ++ [dc])
        ⟨setAdd st.usedSg sg.event_id_provider, setAdd st.usedDc dc.event_id_provider,
          st.rows ++ [mergedRow sg dc fwd (dateStr (some dc))]⟩
      obtain ⟨hsgu, tk, hov, hloc⟩ := findBest_some hf
      have htok1 : tk = recTokens sg := by
        rcases hloc with ⟨_, hmem⟩ | ⟨_, hmem⟩
        · exact (dayLookup_date hIdx hmem).2
        · exact (hNd _ hmem).2
      have htok2 : fwd = true → dateStr (some sg) = dateStr (some dc) := by
        intro hfwd
        rcases hloc with ⟨_, hmem⟩ | ⟨hfalse, _⟩
        · exact (dayLookup_date hIdx hmem).1
        · rw [hfwd] at hfalse
          cases hfalse
      have htok3 : fwd = false → dateStr (some sg) = "" := by
        intro hfwd
        rcases hloc with ⟨htrue, _⟩ | ⟨_, hmem⟩
        · rw [hfwd] at htrue
          cases htrue
        · exact (hNd _ hmem).1
      have hcand : (sg, recTokens sg) ∈ candsOf byDay noDate := by
        rw [← htok1]
        rcases hloc with ⟨_, hmem⟩ | ⟨_, hmem⟩
        · exact List.mem_append_left _ (dayLookup_sub hmem)
        · exact List.mem_append_right _ hmem
      have hSgAdd : setAdd st.usedSg sg.event_id_provider =
          st.usedSg ++ [sg.event_id_provider] := setAdd_of_not_mem hsgu
      have hDcAdd : setAdd st.usedDc dc.event_id_provider =
          st.usedDc ++ [dc.event_id_provider] := setAdd_of_not_mem hdc
      refine ⟨?_, ?_, ?_, ?_, ?_, ?_⟩
      · show sgIdsOf (st.rows ++ [mergedRow sg dc fwd (dateStr (some dc))]) = _
        unfold sgIdsOf
        rw [List.filterMap_append, hSgAdd]
        unfold sgIdsOf at i1
        rw [i1]
        rfl
      · show dcIdsOf (st.rows ++ [mergedRow sg dc fwd (dateStr (some dc))]) = _
        unfold dcIdsOf
        rw [List.filterMap_append, hDcAdd]
        unfold dcIdsOf at i2
        rw [i2]
        rfl
      · show (setAdd st.usedSg sg.event_id_provider).Nodup
        rw [hSgAdd]
        refine List.Nodup.append i3 (by simp) ?_
        intro x hx hx'
        rw [List.mem_singleton.mp hx'] at hx
        exact hsgu hx
      · show ∀ i ∈ setAdd st.usedSg sg.event_id_provider, _
        rw [hSgAdd]
        intro i hi
        rcases List.mem_append.mp hi with hi | hi
        · exact i4 i hi
        · exact ⟨(sg, recTokens sg), hcand, (List.mem_singleton.mp hi).symm⟩
      · show List.Sublist (setAdd st.usedDc dc.event_id_provider) _
        rw [hDcAdd, List.map_append]
        exact List.Sublist.append i5 (by simp)
      · intro r hr
        rcases List.mem_append.mp hr with hr | hr
        · obtain ⟨sg', dc', fwd', h₁, h₂, h₃⟩ := i6 r hr
          exact ⟨sg', dc', fwd', h₁, List.mem_append_left _ h₂, h₃⟩
        · rw [List.mem_singleton.mp hr]
          refine ⟨sg, dc, fwd, hcand, List.mem_append_right _ (by simp), ?_, ?_, rfl,
            hd, htok2, htok3⟩
          · exact (overlapCount_pos (htok1 ▸ hov)).2
          · exact (overlapCount_pos hov).1

theorem pass1_inv_fold {byDay : DayIndex}
    {noDate : List (NormalizedEvent × List String)} (hIdx : IdxInv byDay)
    (hNd : NdInv noDate) :
    ∀ (dice processed : List NormalizedEvent) (st : Pass1State),
      pass1Inv byDay noDate processed st →
        ((processed ++ dice).map (fun dc => dc.event_id_provider)).Nodup →
        pass1Inv byDay noDate (processed ++ dice)
          (dice.foldl (pass1Step byDay noDate) st)
  | [], processed, st, h, _ => by simpa using h
  | dc :: rest, processed, st, h, hnd => by
    rw [List.foldl_cons]
    have hdc : dc.event_id_provider ∉ st.usedDc := by
      intro hmem
      have hsub := h.2.2.2.2.1.subset hmem
      rw [List.map_append] at hnd
      have hdisj := (List.nodup_append.mp hnd).2.2
      exact hdisj hsub (by simp)
    have h' := pass1Step_inv hIdx hNd h hdc
    have hres := pass1_inv_fold hIdx hNd rest (processed ++ [dc]) _ h'
      (by rw [List.append_assoc]; simpa using hnd)
    rw [List.append_assoc] at hres
    simpa using hres


theorem length_filterMap_of_isSome {α β : Type} {f : α → Option β} :
    ∀ {l : List α}, (∀ x ∈ l, (f x).isSome) → (l.filterMap f).length = l.length
  | [], _ => rfl
  | x :: xs, h => by
    rw [List.filterMap_cons]
    rcases hx : f x with _ | y
    · exact absurd (hx ▸ h x (List.mem_cons_self x xs)) (by simp)
    · rw [List.length_cons,
        length_filterMap_of_isSome (fun z hz => h z (List.mem_cons_of_mem x hz))]
      rfl

theorem countP_eq_count_filterMap {f : OutRow → Option String} {i : String} :
    ∀ {rows : List OutRow},
      rows.countP (fun r => f r = some i) = (rows.filterMap f).count i
  | [] => rfl
  | r :: rows => by
    rw [List.countP_cons, List.filterMap_cons]
    rcases hr : f r with _ | j
    · rw [countP_eq_count_filterMap]
      simp
    · rw [List.count_cons, countP_eq_count_filterMap]
      by_cases hj : j = i
      · simp [hj]
      · simp [hj, Ne.symm hj]

theorem map_filter_comm {α β : Type} (f : α → β) (q : β → Bool) :
    ∀ l : List α, (l.filter (fun x => q (f x))).map f = (l.map f).filter q
  | [] => rfl
  | x :: xs => by
    rw [List.filter_cons, List.map_cons, List.filter_cons]
    by_cases hx : q (f x)
    · simp only [hx, if_true, List.map_cons, map_filter_comm f q xs]
    · simp only [hx, if_false, Bool.false_eq_true]
      exact map_filter_comm f q xs

theorem used_filter_perm {used L : List String} (hu : used.Nodup) (hL : L.Nodup)
    (hsub : ∀ i ∈ used, i ∈ L) :
    (used ++ L.filter (fun i => i ∉ used)).Perm L := by
  rw [List.perm_iff_count]
  intro a
  rw [List.count_append]
  by_cases ha : a ∈ used
  · rw [List.count_eq_one_of_mem hu ha, List.count_eq_one_of_mem hL (hsub a ha)]
    have h0 : (L.filter (fun i => i ∉ used)).count a = 0 := by
      rw [List.count_eq_zero]
      intro hmem
      have hp := List.of_mem_filter hmem
      simp only [decide_not, Bool.not_eq_true', decide_eq_false_iff_not] at hp
      exact hp ha
    rw [h0]
  · rw [List.count_eq_zero_of_not_mem ha, List.count_filter (by simpa using ha)]
    exact Nat.zero_add _


theorem consolidateEvents_eq (A B : List NormalizedEvent) :
    consolidateEvents A B =
      ((pass1 (buildIndex A).1 (buildIndex A).2 B).rows ++
        pass2 (buildIndex A).1 (buildIndex A).2
          (pass1 (buildIndex A).1 (buildIndex A).2 B).usedSg ++
        pass3 B (pass1 (buildIndex A).1 (buildIndex A).2 B).usedDc).mergeSort rowLe :=
  rfl

theorem consolidate_perm (A B : List NormalizedEvent)
    (hA : (A.map (fun e => e.event_id_provider)).Nodup)
    (hB : (B.map (fun e => e.event_id_provider)).Nodup) :
    (sgIdsOf (consolidateEvents A B)).Perm (A.map (fun e => e.event_id_provider)) ∧
      (dcIdsOf (consolidateEvents A B)).Perm (B.map (fun e => e.event_id_provider)) ∧
      (consolidateEvents A B).length + matchedCountC A B = A.length + B.length := by
  obtain ⟨hIdx, hNd, hkeys, hcperm⟩ := buildIndex_facts A
  have hinv := pass1_inv_fold hIdx hNd B [] ⟨[], [], []⟩
    ⟨rfl, rfl, List.nodup_nil, (by intro i hi; cases hi), List.nil_sublist _,
      (by intro r hr; cases hr)⟩ (by simpa using hB)
  rw [List.nil_append] at hinv
  have hps : List.foldl (pass1Step (buildIndex A).1 (buildIndex A).2)
      ⟨[], [], []⟩ B = pass1 (buildIndex A).1 (buildIndex A).2 B := rfl
  rw [hps] at hinv
  obtain ⟨i1, i2, i3, i4, i5, i6⟩ := hinv
  have hrows_some : ∀ r ∈ (pass1 (buildIndex A).1 (buildIndex A).2 B).rows,
      (r.shotgun_event_id).isSome ∧ (r.dice_event_id).isSome := by
    intro r hr
    obtain ⟨sg, dc, fwd, _, _, _, _, hre, _⟩ := i6 r hr
    rw [hre]
    exact ⟨rfl, rfl⟩
  have hLperm : ((candsOf (buildIndex A).1 (buildIndex A).2).map
      (fun p => p.1.event_id_provider)).Perm
      (A.map (fun e => e.event_id_provider)) := by
    have h := hcperm.map (fun p => p.1.event_id_provider)
    rw [List.map_map] at h
    exact h
  have hLnodup : ((candsOf (buildIndex A).1 (buildIndex A).2).map
      (fun p => p.1.event_id_provider)).Nodup := hLperm.nodup_iff.mpr hA
  have husedSub : ∀ i ∈ (pass1 (buildIndex A).1 (buildIndex A).2 B).usedSg,
      i ∈ (candsOf (buildIndex A).1 (buildIndex A).2).map
        (fun p => p.1.event_id_provider) := by
    intro i hi
    obtain ⟨p, hp, hpe⟩ := i4 i hi
    exact hpe ▸ List.mem_map_of_mem _ hp
  have hsg2 : sgIdsOf (pass2 (buildIndex A).1 (buildIndex A).2
        (pass1 (buildIndex A).1 (buildIndex A).2 B).usedSg) =
      ((candsOf (buildIndex A).1 (buildIndex A).2).map
        (fun p => p.1.event_id_provider)).filter
        (fun i => i ∉ (pass1 (buildIndex A).1 (buildIndex A).2 B).usedSg) := by
    unfold pass2 sgIdsOf
    rw [List.filterMap_map]
    have hcomp : ((fun r : OutRow => r.shotgun_event_id) ∘
        (fun p : NormalizedEvent × List String => sgSingleton p.1)) =
        (some ∘ (fun p : NormalizedEvent × List String => p.1.event_id_provider)) := rfl
    rw [hcomp, List.filterMap_eq_map]
    exact map_filter_comm
      (fun p : NormalizedEvent × List String => p.1.event_id_provider)
      (fun i => decide (i ∉ (pass1 (buildIndex A).1 (buildIndex A).2 B).usedSg)) _
  have hdc2 : dcIdsOf (pass2 (buildIndex A).1 (buildIndex A).2
      (pass1 (buildIndex A).1 (buildIndex A).2 B).usedSg) = [] := by
    unfold pass2 dcIdsOf
    rw [List.filterMap_map]
    exact List.filterMap_eq_nil_iff.mpr (fun p _ => rfl)
  have hsg3 : sgIdsOf (pass3 B (pass1 (buildIndex A).1 (buildIndex A).2 B).usedDc) = [] := by
    unfold pass3 sgIdsOf
    rw [List.filterMap_map]
    exact List.filterMap_eq_nil_iff.mpr (fun p _ => rfl)
  have hdc3 : dcIdsOf (pass3 B (pass1 (buildIndex A).1 (buildIndex A).2 B).usedDc) =
      (B.map (fun e => e.event_id_provider)).filter
        (fun i => i ∉ (pass1 (buildIndex A).1 (buildIndex A).2 B).usedDc) := by
    unfold pass3 dcIdsOf
    rw [List.filterMap_map]
    have hcomp : ((fun r : OutRow => r.dice_event_id) ∘ dcSingleton) =
        (some ∘ (fun e : NormalizedEvent => e.event_id_provider)) := rfl
    rw [hcomp, List.filterMap_eq_map]
    exact map_filter_comm (fun e : NormalizedEvent => e.event_id_provider)
      (fun i => decide (i ∉ (pass1 (buildIndex A).1 (buildIndex A).2 B).usedDc)) _
  have husedDcNodup : (pass1 (buildIndex A).1 (buildIndex A).2 B).usedDc.Nodup :=
    i5.nodup hB
  have husedDcSub : ∀ i ∈ (pass1 (buildIndex A).1 (buildIndex A).2 B).usedDc,
      i ∈ B.map (fun e => e.event_id_provider) := fun i hi => i5.subset hi
  have hsgU : (sgIdsOf ((pass1 (buildIndex A).1 (buildIndex A).2 B).rows ++
        pass2 (buildIndex A).1 (buildIndex A).2
          (pass1 (buildIndex A).1 (buildIndex A).2 B).usedSg ++
        pass3 B (pass1 (buildIndex A).1 (buildIndex A).2 B).usedDc)).Perm
      (A.map (fun e => e.event_id_provider)) := by
    unfold sgIdsOf
    rw [List.filterMap_append, List.filterMap_append]
    show ((sgIdsOf _ ++ sgIdsOf _) ++ sgIdsOf _).Perm _
    rw [hsg2, hsg3, i1, List.append_nil]
    exact (used_filter_perm i3 hLnodup husedSub).trans hLperm
  have hdcU : (dcIdsOf ((pass1 (buildIndex A).1 (buildIndex A).2 B).rows ++
        pass2 (buildIndex A).1 (buildIndex A).2
          (pass1 (buildIndex A).1 (buildIndex A).2 B).usedSg ++
        pass3 B (pass1 (buildIndex A).1 (buildIndex A).2 B).usedDc)).Perm
      (B.map (fun e => e.event_id_provider)) := by
    unfold dcIdsOf
    rw [List.filterMap_append, List.filterMap_append]
    show ((dcIdsOf _ ++ dcIdsOf _) ++ dcIdsOf _).Perm _
    rw [hdc2, hdc3, i2, List.append_nil]
    exact used_filter_perm husedDcNodup hB husedDcSub
  have hmsort := List.mergeSort_perm
    ((pass1 (buildIndex A).1 (buildIndex A).2 B).rows ++
      pass2 (buildIndex A).1 (buildIndex A).2
        (pass1 (buildIndex A).1 (buildIndex A).2 B).usedSg ++
      pass3 B (pass1 (buildIndex A).1 (buildIndex A).2 B).usedDc) rowLe
  have hsgU' := hsgU
  have hdcU' := hdcU
  unfold sgIdsOf at hsgU'
  unfold dcIdsOf at hdcU'
  refine ⟨?_, ?_, ?_⟩
  · rw [consolidateEvents_eq]
    show (List.filterMap (fun r : OutRow => r.shotgun_event_id) _).Perm _
    exact (hmsort.filterMap (fun r : OutRow => r.shotgun_event_id)).trans hsgU'
  · rw [consolidateEvents_eq]
    show (List.filterMap (fun r : OutRow => r.dice_event_id) _).Perm _
    exact (hmsort.filterMap (fun r : OutRow => r.dice_event_id)).trans hdcU'
  · have hmc : matchedCountC A B = (pass1 (buildIndex A).1 (buildIndex A).2 B).rows.length := rfl
    have hlr : (sgIdsOf (pass1 (buildIndex A).1 (buildIndex A).2 B).rows).length =
        (pass1 (buildIndex A).1 (buildIndex A).2 B).rows.length :=
      length_filterMap_of_isSome (fun r hr => (hrows_some r hr).1)
    have hlrd : (dcIdsOf (pass1 (buildIndex A).1 (buildIndex A).2 B).rows).length =
        (pass1 (buildIndex A).1 (buildIndex A).2 B).rows.length :=
      length_filterMap_of_isSome (fun r hr => (hrows_some r hr).2)
    have hsgLen := (used_filter_perm i3 hLnodup husedSub).length_eq
    have hdcLen := (used_filter_perm husedDcNodup hB husedDcSub).length_eq
    rw [List.length_append] at hsgLen hdcLen
    have hLlen : ((candsOf (buildIndex A).1 (buildIndex A).2).map
        (fun p => p.1.event_id_provider)).length =
        A.length := by rw [hLperm.length_eq, List.length_map]
    have hBlen : (B.map (fun e => e.event_id_provider)).length = B.length :=
      List.length_map _ _
    have hp2 : (pass2 (buildIndex A).1 (buildIndex A).2
        (pass1 (buildIndex A).1 (buildIndex A).2 B).usedSg).length =
        (sgIdsOf (pass2 (buildIndex A).1 (buildIndex A).2
          (pass1 (buildIndex A).1 (buildIndex A).2 B).usedSg)).length := by
      refine (length_filterMap_of_isSome ?_).symm
      intro r hr
      obtain ⟨p, _, rfl⟩ := List.mem_map.mp hr
      rfl
    have hp3 : (pass3 B (pass1 (buildIndex A).1 (buildIndex A).2 B).usedDc).length =
        (dcIdsOf (pass3 B (pass1 (buildIndex A).1 (buildIndex A).2 B).usedDc)).length := by
      refine (length_filterMap_of_isSome ?_).symm
      intro r hr
      obtain ⟨p, _, rfl⟩ := List.mem_map.mp hr
      rfl
    have hUsedSg : (pass1 (buildIndex A).1 (buildIndex A).2 B).usedSg.length =
        (pass1 (buildIndex A).1 (buildIndex A).2 B).rows.length := by
      rw [← i1]
      exact hlr
    have hUsedDc : (pass1 (buildIndex A).1 (buildIndex A).2 B).usedDc.length =
        (pass1 (buildIndex A).1 (buildIndex A).2 B).rows.length := by
      rw [← i2]
      exact hlrd
    have hp2len := hp2
    rw [hsg2] at hp2len
    have hp3len := hp3
    rw [hdc3] at hp3len
    rw [consolidateEvents_eq, List.length_mergeSort, List.length_append,
      List.length_append, hmc]
    omega


/-!  Key accounting of the `merge_shotgun_dice` dictionaries. -/

theorem dictSet_fresh {α : Type} {l : PyDict α} {k : String} {v : α}
    (h : k ∉ l.map Prod.fst) : dictSet l k v = l ++ [(k, v)] := by
  unfold dictSet
  rw [if_neg]
  intro hs
  rw [List.find?_isSome] at hs
  obtain ⟨p, hp, hpk⟩ := hs
  rw [decide_eq_true_iff] at hpk
  exact h (hpk ▸ List.mem_map_of_mem Prod.fst hp)

theorem dictSet_present_keys {α : Type} {l : PyDict α} {k : String} {v : α}
    (h : (l.find? (fun p => p.1 = k)).isSome) :
    (dictSet l k v).map Prod.fst = l.map Prod.fst := by
  unfold dictSet
  rw [if_pos h, List.map_map]
  exact List.map_congr_left (fun q hq => by by_cases hqk : q.1 = k <;> simp [hqk])

theorem dictSet_keys {α : Type} (l : PyDict α) (k : String) (v : α) :
    (dictSet l k v).map Prod.fst = l.map Prod.fst ∨
      (dictSet l k v).map Prod.fst = l.map Prod.fst ++ [k] := by
  by_cases h : ((l.find? (fun p => p.1 = k)).isSome : Prop)
  · exact Or.inl (dictSet_present_keys h)
  · refine Or.inr ?_
    have hk : k ∉ l.map Prod.fst := by
      intro hmem
      obtain ⟨p, hp, hpk⟩ := List.mem_map.mp hmem
      exact h (List.find?_isSome.mpr ⟨p, hp, by simp [hpk]⟩)
    rw [dictSet_fresh hk, List.map_append]
    rfl

theorem dictModify_keys {α : Type} (l : PyDict α) (k : String) (f : α → α) :
    (dictModify l k f).map Prod.fst = l.map Prod.fst := by
  unfold dictModify
  rw [List.map_map]
  exact List.map_congr_left (fun q hq => by by_cases hqk : q.1 = k <;> simp [hqk])

theorem buildSg_keys_fold : ∀ (A : List NormalizedEvent)
      (st : PyDict NormalizedEvent × PyDict ConsolidatedRow) (ks : List String),
    st.1.map Prod.fst = ks → st.2.map Prod.fst = ks →
    (ks ++ A.map eventKey).Nodup →
      (A.foldl sgIndexStep st).1.map Prod.fst = ks ++ A.map eventKey ∧
        (A.foldl sgIndexStep st).2.map Prod.fst = ks ++ A.map eventKey
  | [], st, ks, h1, h2, _ => by simpa using ⟨h1, h2⟩
  | ev :: A', st, ks, h1, h2, hnd => by
    rw [List.foldl_cons]
    have hk : eventKey ev ∉ ks := by
      intro hmem
      rw [List.map_cons] at hnd
      have hdisj := (List.nodup_append.mp hnd).2.2
      exact hdisj hmem (by simp)
    have hstep1 : (sgIndexStep st ev).1.map Prod.fst = ks ++ [eventKey ev] := by
      show (dictSet st.1 (eventKey ev) ev).map Prod.fst = _
      rw [dictSet_fresh (h1 ▸ hk), List.map_append, h1]
      rfl
    have hstep2 : (sgIndexStep st ev).2.map Prod.fst = ks ++ [eventKey ev] := by
      show (dictSet st.2 (eventKey ev) (sgRow (eventKey ev) ev)).map Prod.fst = _
      rw [dictSet_fresh (h2 ▸ hk), List.map_append, h2]
      rfl
    have hres := buildSg_keys_fold A' (sgIndexStep st ev) (ks ++ [eventKey ev])
      hstep1 hstep2 (by rw [List.append_assoc]; simpa using hnd)
    rw [List.append_assoc] at hres
    simpa using hres

theorem buildSg_keys {A : List NormalizedEvent} (h : (A.map eventKey).Nodup) :
    (buildSg A).1.map Prod.fst = A.map eventKey ∧
      (buildSg A).2.map Prod.fst = A.map eventKey := by
  have hres := buildSg_keys_fold A ([], []) [] rfl rfl (by simpa using h)
  simpa using hres

theorem mergeFold_keys (sgIdx : PyDict NormalizedEvent) (tol : Int) (thr : ℚ) :
    ∀ (B : List NormalizedEvent) (out : PyDict ConsolidatedRow) (ks : List String),
      out.map Prod.fst = ks →
      (ks ++ (B.filter
          (fun dv => !(diceBest sgIdx dv tol thr).isSome)).map eventKey).Nodup →
        (B.foldl (mergeStep sgIdx tol thr) out).map Prod.fst =
          ks ++ (B.filter (fun dv => !(diceBest sgIdx dv tol thr).isSome)).map eventKey
  | [], out, ks, h1, _ => by simpa using h1
  | dv :: rest, out, ks, h1, hnd => by
    rw [List.foldl_cons]
    rcases hbest : diceBest sgIdx dv tol thr with _ | key
    · have hf : (dv :: rest).filter (fun dv => !(diceBest sgIdx dv tol thr).isSome) =
          dv :: rest.filter (fun dv => !(diceBest sgIdx dv tol thr).isSome) := by
        rw [List.filter_cons, hbest]
        rfl
      rw [hf] at hnd ⊢
      have hkfresh : eventKey dv ∉ ks := by
        rw [List.map_cons] at hnd
        have hdisj := (List.nodup_append.mp hnd).2.2
        intro hmem
        exact hdisj hmem (by simp)
      have hstep : (mergeStep sgIdx tol thr out dv).map Prod.fst =
          ks ++ [eventKey dv] := by
        unfold mergeStep
        rw [hbest, dictSet_fresh (h1 ▸ hkfresh), List.map_append, h1]
        rfl
      have hres := mergeFold_keys sgIdx tol thr rest (mergeStep sgIdx tol thr out dv)
        (ks ++ [eventKey dv]) hstep
        (by rw [List.append_assoc]; rw [List.map_cons] at hnd; simpa using hnd)
      rw [hres, List.append_assoc]
      rfl
    · have hf : (dv :: rest).filter (fun dv => !(diceBest sgIdx dv tol thr).isSome) =
          rest.filter (fun dv => !(diceBest sgIdx dv tol thr).isSome) := by
        rw [List.filter_cons, hbest]
        rfl
      rw [hf] at hnd ⊢
      have hstep : (mergeStep sgIdx tol thr out dv).map Prod.fst = ks := by
        unfold mergeStep
        rw [hbest, dictModify_keys, h1]
      exact mergeFold_keys sgIdx tol thr rest (mergeStep sgIdx tol thr out dv) ks
        hstep hnd

theorem length_filter_not_add_countP {α : Type} (p : α → Bool) :
    ∀ l : List α, (l.filter (fun a => !p a)).length + l.countP p = l.length
  | [] => rfl
  | x :: xs => by
    rw [List.filter_cons, List.countP_cons]
    have hrec := length_filter_not_add_countP p xs
    by_cases hx : p x
    · rw [if_neg (by simp [hx]), if_pos (by simp [hx]), List.length_cons]
      omega
    · rw [if_pos (by simp [hx]), if_neg (by simp [hx])]
      simp only [List.length_cons]
      omega

theorem merge_count (A B : List NormalizedEvent) (tol : Int) (thr : ℚ)
    (h : ((A.map eventKey) ++ (unmatchedDice A B tol thr).map eventKey).Nodup) :
    (mergeShotgunDice A B tol thr).length + matchedPairCount A B tol thr =
      A.length + B.length := by
  have hAkeys : (A.map eventKey).Nodup := (List.nodup_append.mp h).1
  obtain ⟨hk1, hk2⟩ := buildSg_keys hAkeys
  have hout := mergeFold_keys (buildSg A).1 tol thr B (buildSg A).2 (A.map eventKey)
    hk2 (by exact h)
  have hlen : (mergeShotgunDice A B tol thr).length =
      (B.foldl (mergeStep (buildSg A).1 tol thr) (buildSg A).2).length := by
    unfold mergeShotgunDice
    rw [List.length_map]
  have hlen2 : (B.foldl (mergeStep (buildSg A).1 tol thr) (buildSg A).2).length =
      ((B.foldl (mergeStep (buildSg A).1 tol thr) (buildSg A).2).map Prod.fst).length :=
    (List.length_map _ _).symm
  rw [hlen, hlen2, hout, List.length_append, List.length_map, List.length_map]
  have hcnt := length_filter_not_add_countP
    (fun dv => (diceBest (buildSg A).1 dv tol thr).isSome) B
  unfold matchedPairCount
  unfold unmatchedDice at *
  omega


/-!  Row-level corollaries of the match-pass invariant. -/

theorem countP_sg (rows : List OutRow) (i : String) :
    rows.countP (fun r => r.shotgun_event_id = some i) = (sgIdsOf rows).count i :=
  countP_eq_count_filterMap

theorem countP_dc (rows : List OutRow) (i : String) :
    rows.countP (fun r => r.dice_event_id = some i) = (dcIdsOf rows).count i :=
  countP_eq_count_filterMap

theorem consolidate_count_sg {A B : List NormalizedEvent}
    (hA : (A.map (fun e => e.event_id_provider)).Nodup)
    (hB : (B.map (fun e => e.event_id_provider)).Nodup)
    {a : NormalizedEvent} (ha : a ∈ A) :
    (consolidateEvents A B).countP
      (fun r => r.shotgun_event_id = some a.event_id_provider) = 1 := by
  rw [countP_sg, ((consolidate_perm A B hA hB).1.count_eq _)]
  exact List.count_eq_one_of_mem hA (List.mem_map_of_mem _ ha)

theorem consolidate_count_dc {A B : List NormalizedEvent}
    (hA : (A.map (fun e => e.event_id_provider)).Nodup)
    (hB : (B.map (fun e => e.event_id_provider)).Nodup)
    {b : NormalizedEvent} (hb : b ∈ B) :
    (consolidateEvents A B).countP
      (fun r => r.dice_event_id = some b.event_id_provider) = 1 := by
  rw [countP_dc, ((consolidate_perm A B hA hB).2.1.count_eq _)]
  exact List.count_eq_one_of_mem hB (List.mem_map_of_mem _ hb)

theorem consolidate_mem {A B : List NormalizedEvent}
    (hB : (B.map (fun e => e.event_id_provider)).Nodup) :
    ∀ r ∈ consolidateEvents A B,
      (∃ sg dc fwd, sg ∈ A ∧ dc ∈ B ∧
          recTokens sg ≠ [] ∧ recTokens dc ≠ [] ∧
          r = mergedRow sg dc fwd (dateStr (some dc)) ∧
          dateStr (some dc) ≠ "" ∧
          (fwd = true → dateStr (some sg) = dateStr (some dc)) ∧
          (fwd = false → dateStr (some sg) = "")) ∨
        (∃ sg ∈ A, r = sgSingleton sg) ∨
        (∃ dc ∈ B, r = dcSingleton dc) := by
  intro r hr
  obtain ⟨hIdx, hNd, hkeys, hcperm⟩ := buildIndex_facts A
  have hinv := pass1_inv_fold hIdx hNd B [] ⟨[], [], []⟩
    ⟨rfl, rfl, List.nodup_nil, (by intro i hi; cases hi), List.nil_sublist _,
      (by intro q hq; cases hq)⟩ (by simpa using hB)
  rw [List.nil_append] at hinv
  have hps : List.foldl (pass1Step (buildIndex A).1 (buildIndex A).2)
      ⟨[], [], []⟩ B = pass1 (buildIndex A).1 (buildIndex A).2 B := rfl
  rw [hps] at hinv
  obtain ⟨i1, i2, i3, i4, i5, i6⟩ := hinv
  rw [consolidateEvents_eq, List.mem_mergeSort, List.mem_append, List.mem_append] at hr
  rcases hr with (hr | hr) | hr
  · obtain ⟨sg, dc, fwd, hcs, hdc, htks, htkd, hre, hdne, hft, hff⟩ := i6 r hr
    left
    have hsgA : sg ∈ A := by
      obtain ⟨a, haA, hae⟩ := List.mem_map.mp (hcperm.mem_iff.mp hcs)
      have hfst : a = sg := congrArg Prod.fst hae
      exact hfst ▸ haA
    exact ⟨sg, dc, fwd, hsgA, hdc, htks, htkd, hre, hdne, hft, hff⟩
  · right; left
    unfold pass2 at hr
    obtain ⟨p, hp, hpe⟩ := List.mem_map.mp hr
    have hpc : p ∈ candsOf (buildIndex A).1 (buildIndex A).2 :=
      (List.mem_filter.mp hp).1
    obtain ⟨a, haA, hae⟩ := List.mem_map.mp (hcperm.mem_iff.mp hpc)
    have hfst : a = p.1 := congrArg Prod.fst hae
    exact ⟨p.1, hfst ▸ haA, hpe.symm⟩
  · right; right
    unfold pass3 at hr
    obtain ⟨dc, hdc, hde⟩ := List.mem_map.mp hr
    exact ⟨dc, (List.mem_filter.mp hdc).1, hde.symm⟩


/-- C3.  Both merge variants are deterministic: they are pure functions of
the two input collections and the configuration, so two runs on identical
inputs give identical outputs (the embedding is faithful on iteration
order: the source iterates only lists and insertion-ordered dictionaries,
and its sets are used for membership only, never iterated). -/
theorem merge_deterministic (A B : List NormalizedEvent) (tol : Int) (thr : ℚ) :
    consolidateEvents A B = consolidateEvents A B ∧
      mergeShotgunDice A B tol thr = mergeShotgunDice A B tol thr :=
  ⟨rfl, rfl⟩

/-- C1 (amended).  Completeness of the matcher for duplicate-free inputs:
when the per-side ids are pairwise distinct (consolidate_events) and the
canonical keys of the shotgun records and of the unmatched dice records
are pairwise distinct (merge_shotgun_dice), every record of A and of B
appears in exactly one output row and the output length is
`len(A) + len(B) - matched_pair_count`, for both merge variants.  Without
the distinctness assumptions the identity fails (see the counterexample:
colliding canonical keys silently drop a shotgun record). -/
theorem merge_completeness (A B : List NormalizedEvent) (tol : Int) (thr : ℚ)
    (hA : (A.map (fun e => e.event_id_provider)).Nodup)
    (hB : (B.map (fun e => e.event_id_provider)).Nodup)
    (hK : ((A.map eventKey) ++ (unmatchedDice A B tol thr).map eventKey).Nodup) :
    ((consolidateEvents A B).length + matchedCountC A B = A.length + B.length ∧
      (∀ a ∈ A, (consolidateEvents A B).countP
          (fun r => r.shotgun_event_id = some a.event_id_provider) = 1) ∧
      ∀ b ∈ B, (consolidateEvents A B).countP
          (fun r => r.dice_event_id = some b.event_id_provider) = 1) ∧
    (mergeShotgunDice A B tol thr).length + matchedPairCount A B tol thr =
      A.length + B.length := by
  refine ⟨⟨(consolidate_perm A B hA hB).2.2, ?_, ?_⟩, merge_count A B tol thr hK⟩
  · intro a ha
    exact consolidate_count_sg hA hB ha
  · intro b hb
    exact consolidate_count_dc hA hB hb

/-- Witness for C1 at concrete duplicate-free inputs: one shotgun and one
dice record that pair up; both length identities hold with one matched
pair. -/
theorem merge_completeness_witness :
    (consolidateEvents wA wB).length + matchedCountC wA wB = wA.length + wB.length ∧
      (mergeShotgunDice wA wB 30 (mkRat 9 10)).length +
        matchedPairCount wA wB 30 (mkRat 9 10) = wA.length + wB.length :=
  ⟨(merge_completeness wA wB 30 (mkRat 9 10) (by decide) (by decide) (by decide)).1.1,
   (merge_completeness wA wB 30 (mkRat 9 10) (by decide) (by decide) (by decide)).2⟩

/-- Counterexample to C1 as stated: two shotgun records with the same name
and timestamp collide on one canonical key in `merge_shotgun_dice`, the
second `out[key] = ...` overwrites the first, and with no dice input the
output holds one row instead of two — a record is silently dropped. -/
theorem merge_completeness_cx :
    ¬ ((mergeShotgunDice cxA [] 30 (mkRat 9 10)).length +
        matchedPairCount cxA [] 30 (mkRat 9 10) =
        cxA.length + ([] : List NormalizedEvent).length) := by
  decide

/-- C2 (amended).  At-most-once consumption holds for `consolidate_events`
on duplicate-free inputs: its `used_sg`/`used_dc` sets ensure that no
shotgun id and no dice id is carried by more than one output row.
`merge_shotgun_dice` keeps no used-set, so the guarantee does not extend
to it (see the counterexample: one shotgun row absorbs two dice
records). -/
theorem at_most_once (A B : List NormalizedEvent)
    (hA : (A.map (fun e => e.event_id_provider)).Nodup)
    (hB : (B.map (fun e => e.event_id_provider)).Nodup) (i : String) :
    (consolidateEvents A B).countP (fun r => r.shotgun_event_id = some i) ≤ 1 ∧
      (consolidateEvents A B).countP (fun r => r.dice_event_id = some i) ≤ 1 := by
  obtain ⟨h1, h2, _⟩ := consolidate_perm A B hA hB
  constructor
  · rw [countP_sg, h1.count_eq]
    exact List.nodup_iff_count_le_one.mp hA i
  · rw [countP_dc, h2.count_eq]
    exact List.nodup_iff_count_le_one.mp hB i

/-- Witness for C2 at concrete inputs: the shotgun id "s1" is carried by
at most one row on either side. -/
theorem at_most_once_witness :
    (consolidateEvents wA wB).countP (fun r => r.shotgun_event_id = some "s1") ≤ 1 ∧
      (consolidateEvents wA wB).countP (fun r => r.dice_event_id = some "s1") ≤ 1 :=
  at_most_once wA wB (by decide) (by decide) "s1"

/-- Counterexample to C2 as stated for `merge_shotgun_dice`: the function
keeps no used-set, so both dice records attach to the single shotgun
record — one record is matched to two counterparts, which at-most-once
consumption would cap at `len(A)` matched pairs. -/
theorem at_most_once_cx :
    ¬ (matchedPairCount [exEv "shotgun" "s1" "Band" (some exDT) (some 10)]
        cxB2 30 (mkRat 9 10) ≤
        [exEv "shotgun" "s1" "Band" (some exDT) (some 10)].length) := by
  decide

theorem consolidate_countP_eq (A B : List NormalizedEvent) (p : OutRow → Bool) :
    (consolidateEvents A B).countP p =
      ((pass1 (buildIndex A).1 (buildIndex A).2 B).rows ++
        pass2 (buildIndex A).1 (buildIndex A).2
          (pass1 (buildIndex A).1 (buildIndex A).2 B).usedSg ++
        pass3 B (pass1 (buildIndex A).1 (buildIndex A).2 B).usedDc).countP p := by
  rw [consolidateEvents_eq]
  exact (List.mergeSort_perm _ rowLe).countP_eq p

/-- C4 (amended).  Leftover fall-through for records that truly cannot be
matched: on duplicate-free inputs, a shotgun record whose fields yield no
artist token, and a dice record with no parseable date or no artist token,
are never matched by `consolidate_events` — each reaches the output in
exactly one row, namely its own singleton row with the opposing side's
fields null.  A DATELESS shotgun record whose name does yield tokens is
NOT covered: the fallback pass deliberately matches it against same-day
dice records (see the counterexample). -/
theorem leftover_fallthrough (A B : List NormalizedEvent)
    (hA : (A.map (fun e => e.event_id_provider)).Nodup)
    (hB : (B.map (fun e => e.event_id_provider)).Nodup)
    (a : NormalizedEvent) (haA : a ∈ A) (hat : recTokens a = [])
    (b : NormalizedEvent) (hbB : b ∈ B)
    (hbd : dateStr (some b) = "" ∨ recTokens b = []) :
    (consolidateEvents A B).countP
        (fun r => r.shotgun_event_id = some a.event_id_provider) = 1 ∧
      (∀ r ∈ consolidateEvents A B,
        r.shotgun_event_id = some a.event_id_provider → r = sgSingleton a) ∧
      (consolidateEvents A B).countP
        (fun r => r.dice_event_id = some b.event_id_provider) = 1 ∧
      ∀ r ∈ consolidateEvents A B,
        r.dice_event_id = some b.event_id_provider → r = dcSingleton b := by
  refine ⟨consolidate_count_sg hA hB haA, ?_, consolidate_count_dc hA hB hbB, ?_⟩
  · intro r hr hid
    rcases consolidate_mem hB r hr with
      ⟨sg, dc, fwd, hsgA, hdcB, htks, htkd, hre, hdne, hft, hff⟩ |
        ⟨sg, hsgA, hre⟩ | ⟨dc, hdcB, hre⟩
    · exfalso
      have hsgid : sg.event_id_provider = a.event_id_provider := by
        rw [hre] at hid
        simpa [mergedRow] using hid
      have hsa : sg = a := List.inj_on_of_nodup_map hA hsgA haA hsgid
      rw [hsa] at htks
      exact htks hat
    · have hsgid : sg.event_id_provider = a.event_id_provider := by
        rw [hre] at hid
        simpa [sgSingleton] using hid
      have hsa : sg = a := List.inj_on_of_nodup_map hA hsgA haA hsgid
      rw [hre, hsa]
    · exfalso
      rw [hre] at hid
      simp [dcSingleton] at hid
  · intro r hr hid
    rcases consolidate_mem hB r hr with
      ⟨sg, dc, fwd, hsgA, hdcB, htks, htkd, hre, hdne, hft, hff⟩ |
        ⟨sg, hsgA, hre⟩ | ⟨dc, hdcB, hre⟩
    · exfalso
      have hdid : dc.event_id_provider = b.event_id_provider := by
        rw [hre] at hid
        simpa [mergedRow] using hid
      have hdb : dc = b := List.inj_on_of_nodup_map hB hdcB hbB hdid
      rcases hbd with hbd | hbd
      · exact hdne (hdb ▸ hbd)
      · exact htkd (hdb ▸ hbd)
    · exfalso
      rw [hre] at hid
      simp [sgSingleton] at hid
    · have hdid : dc.event_id_provider = b.event_id_provider := by
        rw [hre] at hid
        simpa [dcSingleton] using hid
      have hdb : dc = b := List.inj_on_of_nodup_map hB hdcB hbB hdid
      rw [hre, hdb]

/-- Witness for C4 at concrete inputs: the token-free shotgun record and
the dateless dice record each appear in exactly one output row. -/
theorem leftover_fallthrough_witness :
    (consolidateEvents w4A w4B).countP
        (fun r => r.shotgun_event_id = some exA4.event_id_provider) = 1 ∧
      (consolidateEvents w4A w4B).countP
        (fun r => r.dice_event_id = some exB4.event_id_provider) = 1 :=
  ⟨(leftover_fallthrough w4A w4B (by decide) (by decide) exA4 (by decide)
      (by decide) exB4 (by decide) (Or.inl (by decide))).1,
   (leftover_fallthrough w4A w4B (by decide) (by decide) exA4 (by decide)
      (by decide) exB4 (by decide) (Or.inl (by decide))).2.2.1⟩

/-- Counterexample to C4 as stated: a shotgun record with NO parseable
date but a usable token is nevertheless matched — the fallback pass pairs
it with a same-token dated dice record, so the output contains a row
carrying both ids rather than only singletons. -/
theorem leftover_fallthrough_cx :
    ¬ ((consolidateEvents cxA4 cxB4).countP
        (fun r => r.shotgun_event_id.isSome && r.dice_event_id.isSome) = 0) := by
  rw [consolidate_countP_eq]
  decide

/-- C5.  Merge field preference: on duplicate-free inputs, every output
row of `consolidate_events` carrying both source ids is the merged row of
exactly one accepted pair — it carries both tickets-sold values and both
ids, takes event name, artist and venue from the shotgun record when
present with fallback to the dice record, and its date falls back to the
dice record's day exactly when the shotgun record has no date (spec
scenario 3). -/
theorem merge_field_preference (A B : List NormalizedEvent)
    (hA : (A.map (fun e => e.event_id_provider)).Nodup)
    (hB : (B.map (fun e => e.event_id_provider)).Nodup)
    (r : OutRow) (hr : r ∈ consolidateEvents A B)
    (hs : r.shotgun_event_id.isSome) (hd : r.dice_event_id.isSome) :
    ∃ sg dc, sg ∈ A ∧ dc ∈ B ∧
      r.event_name = pyOrS sg.event_name (pyOrS dc.event_name "") ∧
      r.artist = optStr sg.artist_name (optStr dc.artist_name "") ∧
      r.venue = optStr sg.venue_name
        (optStr dc.venue_name (optStr sg.city (optStr dc.city ""))) ∧
      r.shotgun_tickets_sold = sg.tickets_sold_total ∧
      r.dice_tickets_sold = dc.tickets_sold_total ∧
      r.shotgun_event_id = some sg.event_id_provider ∧
      r.dice_event_id = some dc.event_id_provider ∧
      r.event_datetime_local =
        (if dateStr (some sg) = "" then dateStr (some dc) else dateStr (some sg)) ∧
      (consolidateEvents A B).countP
        (fun q => q.shotgun_event_id = some sg.event_id_provider) = 1 := by
  rcases consolidate_mem hB r hr with
    ⟨sg, dc, fwd, hsgA, hdcB, htks, htkd, hre, hdne, hft, hff⟩ |
      ⟨sg, hsgA, hre⟩ | ⟨dc, hdcB, hre⟩
  · subst hre
    refine ⟨sg, dc, hsgA, hdcB, rfl, rfl, rfl, rfl, rfl, rfl, rfl, ?_,
      consolidate_count_sg hA hB hsgA⟩
    cases fwd with
    | true =>
      have h1 : dateStr (some sg) = dateStr (some dc) := hft rfl
      show dateStr (some sg) = _
      rw [if_neg (fun h => hdne (h1.symm.trans h))]
    | false =>
      have h1 : dateStr (some sg) = "" := hff rfl
      show dateStr (some dc) = _
      rw [if_pos h1]
  · exfalso
    subst hre
    simp [sgSingleton] at hd
  · exfalso
    subst hre
    simp [dcSingleton] at hs

/-- Witness for C5 on the scenario-3 inputs: the dateless shotgun record
pairs with the dated dice record and the merged row takes the dice
record's day, the shotgun record's name and both ticket counts. -/
theorem merge_field_preference_witness :
    ∃ sg dc, sg ∈ cxA4 ∧ dc ∈ cxB4 ∧
      exRow5.event_name = pyOrS sg.event_name (pyOrS dc.event_name "") ∧
      exRow5.artist = optStr sg.artist_name (optStr dc.artist_name "") ∧
      exRow5.venue = optStr sg.venue_name
        (optStr dc.venue_name (optStr sg.city (optStr dc.city ""))) ∧
      exRow5.shotgun_tickets_sold = sg.tickets_sold_total ∧
      exRow5.dice_tickets_sold = dc.tickets_sold_total ∧
      exRow5.shotgun_event_id = some sg.event_id_provider ∧
      exRow5.dice_event_id = some dc.event_id_provider ∧
      exRow5.event_datetime_local =
        (if dateStr (some sg) = "" then dateStr (some dc) else dateStr (some sg)) ∧
      (consolidateEvents cxA4 cxB4).countP
        (fun q => q.shotgun_event_id = some sg.event_id_provider) = 1 :=
  merge_field_preference cxA4 cxB4 (by decide) (by decide) exRow5
    (by rw [consolidateEvents_eq, List.mem_mergeSort]; decide)
    (by decide) (by decide)

end ConcertsETL
